import Mathlib

/-!
# Verification of the FlexGet `upgrade` filter plugin

Shallow embedding of `flexget/plugins/filter/upgrade.py`:
the grouping stage (`group_entries`), the filter decision engine
(`LazyUpgrade.on_task_filter`), the learn stage (`LazyUpgrade.on_task_learn`),
the configuration preparation (`LazyUpgrade.prepare_config`) and the persisted
`EntryUpgrade` records.

Modelling conventions:
* Qualities (`flexget.utils.qualities.Quality`) are an opaque totally ordered
  value in the source; they are represented here by `Nat`.
* Entries are mutated in place by the source (`entry.accept/reject/fail`);
  here an `Entry` carries its disposition, its reason string, and a `log` of
  every disposition action applied to it, and functions return updated copies.
  The batch is modelled as a list, and in-place mutation of its members is
  modelled by indexing the batch (`List.enum`) and applying the collected
  per-index updates at the end of the phase.
* The SQLAlchemy table `upgrade` is modelled as an association list from
  identifier to `UpgradeRecord`.
-/

/-- Modelled from the spec: `Quality` is an opaque, totally ordered value
(`flexget.utils.qualities.Quality` is not part of the sources under
verification); it is represented by `Nat`. -/
abbrev Quality := Nat

/-- The pipeline-visible outcome of an entry
(`pending | accepted | rejected | failed`). -/
inductive Disposition
  | pending
  | accepted
  | rejected
  | failed
deriving DecidableEq, Repr

/-- The three disposition actions of `entry_actions`
(`Entry.accept`, `Entry.reject`, `Entry.fail`). -/
inductive EntryAction
  | accept
  | reject
  | fail
deriving DecidableEq, Repr

/-- The disposition an action sets. -/
def EntryAction.toDisposition : EntryAction → Disposition
  | .accept => .accepted
  | .reject => .rejected
  | .fail => .failed

/-- An input entry.  `nativeId` models `entry.get('id')` (absent field gives
`none`); `render` models `entry.render(template)`; `quality` models
`entry['quality']`.  `disposition`, `reason` and `log` record the effect of
the disposition actions applied to the entry. -/
structure Entry where
  title : String
  nativeId : Option String
  render : String → String
  quality : Quality
  disposition : Disposition
  reason : String
  log : List (EntryAction × String)

/-- Modelled from the spec: the per-item pipeline operations
`accept(reason)`, `reject(reason)`, `fail(reason)` (implemented by
`flexget.entry.Entry`, which is not among the sources under verification)
set the mutable disposition together with a human-readable reason.  Every
application is additionally recorded in the entry's `log`. -/
def applyAction (a : EntryAction) (reason : String) (e : Entry) : Entry :=
  { e with
    disposition := a.toDisposition
    reason := reason
    log := e.log ++ [(a, reason)] }

/-- Python `str.lower()`, modelled for the strings appearing here. -/
def pyLower (s : String) : String :=
  String.mk (s.data.map Char.toLower)

/-- The `on_lower` configuration value
(`enum: ['accept', 'reject', 'fail', 'skip']`). -/
inductive OnLower
  | accept
  | reject
  | fail
  | skip
deriving DecidableEq, Repr, Fintype

/-- The string form of an `on_lower` value, used by the `'on_lower %s …'`
messages. -/
def OnLower.str : OnLower → String
  | .accept => "accept"
  | .reject => "reject"
  | .fail => "fail"
  | .skip => "skip"

/-- The module-level `entry_actions` dict: maps the `on_lower` name to the
entry action; `'skip'` is not a key of the dict. -/
def entry_actions : OnLower → Option EntryAction
  | .accept => some .accept
  | .reject => some .reject
  | .fail => some .fail
  | .skip => none

/-- Modelled from the spec: a `target` quality-requirement specification
string yields a target quality (`qualities.Quality(config['target'])`) and a
requirement predicate (`qualities.Requirements(config['target'])`, used via
`.allows`); the `qualities` module is not among the sources under
verification, so the two parsed forms are taken as the abstract content of
the spec string. -/
structure Target where
  quality : Quality
  allows : Quality → Bool

/-- The raw plugin configuration: per the schema, either a boolean or an
object with optional keys `identified_by`, `tracking`, `target`,
`on_lower`. -/
inductive RawConfig
  | bool (b : Bool)
  | obj (identified_by : Option String) (tracking : Option Bool)
      (target : Option Target) (on_lower : Option OnLower)

/-- Python truthiness of the raw config (`if not config: return`):
`False` is falsy, and an object with no keys is falsy. -/
def RawConfig.truthy : RawConfig → Bool
  | .bool b => b
  | .obj i t g o => !(i.isNone && t.isNone && g.isNone && o.isNone)

/-- The prepared configuration after `prepare_config` fills the defaults. -/
structure Config where
  identified_by : String
  tracking : Bool
  on_lower : OnLower
  target : Option Target

/-- `LazyUpgrade.prepare_config`: a boolean (or empty) config is replaced by
`{}`, then `identified_by`, `tracking`, `on_lower`, `target` receive their
defaults via `setdefault`. -/
def prepare_config : RawConfig → Config
  | .bool _ => ⟨"auto", true, .skip, none⟩
  | .obj i t g o => ⟨i.getD "auto", t.getD true, o.getD .skip, g⟩

/-- The persisted `EntryUpgrade` record (table `upgrade`): `title`,
`quality`, `proper` (a column the plugin never assigns) and the `added`
timestamp. -/
structure UpgradeRecord where
  title : String
  quality : Quality
  proper : Option Bool
  added : Nat
deriving DecidableEq, Repr

/-- The persisted store: identifier-keyed association list of records. -/
abbrev Store := List (String × UpgradeRecord)

/-- Lookup by identifier (the prefetch
`session.query(EntryUpgrade).filter(EntryUpgrade.id.in_(...))`). -/
def storeFind (st : Store) (k : String) : Option UpgradeRecord :=
  (st.find? (fun p => p.1 == k)).map (fun p => p.2)

/-- Overwrite the record stored under an existing identifier. -/
def storeSet (st : Store) (k : String) (r : UpgradeRecord) : Store :=
  st.map (fun p => if p.1 = k then (k, r) else p)

/-- The identifier an entry resolves to, lower-cased
(`entry.get('id') if identified_by == 'auto' else entry.render(identified_by)`
followed by the `if not identifier: continue` check and `identifier.lower()`). -/
def resolvedKey (identified_by : String) (e : Entry) : Option String :=
  let ident := if identified_by = "auto" then e.nativeId else some (e.render identified_by)
  match ident with
  | none => none
  | some s => if s = "" then none else some (pyLower s)

/-- One step of grouping: append an element to the group of key `k`
(`grouped_entries[identifier.lower()].append(entry)` on a `defaultdict`). -/
def insertGrouped (k : String) (x : α) : List (String × List α) → List (String × List α)
  | [] => [(k, [x])]
  | (k', g) :: rest =>
      if k' = k then (k', g ++ [x]) :: rest else (k', g) :: insertGrouped k x rest

/-- Grouping of a list by an optional string key, keeping insertion order of
both keys and group members; elements with no key are dropped. -/
def groupByKey (key : α → Option String) (l : List α) : List (String × List α) :=
  l.foldl
    (fun acc x =>
      match key x with
      | none => acc
      | some k => insertGrouped k x acc)
    []

/-- `group_entries(entries, identified_by)`. -/
def group_entries (entries : List Entry) (identified_by : String) :
    List (String × List Entry) :=
  groupByKey (fun e => resolvedKey identified_by e) entries

/-- Lookup of a group by its key. -/
def findGroup (gs : List (String × List α)) (k : String) : Option (List α) :=
  (gs.find? (fun p => p.1 == k)).map (fun p => p.2)

/-- The message of line 136
(`'on_lower %s because already at target quality'`). -/
def msgTarget (ol : OnLower) : String :=
  "on_lower " ++ ol.str ++ " because already at target quality"

/-- The message of line 139
(`'on_lower %s because lower then existing quality'`). -/
def msgLower (ol : OnLower) : String :=
  "on_lower " ++ ol.str ++ " because lower then existing quality"

/-- The message of line 142
(`'on_lower %s because lower quality compared to entries'`). -/
def msgLowerBest (ol : OnLower) : String :=
  "on_lower " ++ ol.str ++ " because lower quality compared to entries"

/-- Lines 135-137: `if entry['quality'] > existing.quality and
target_downloaded: action(entry, msg)`. -/
def condTarget (act : EntryAction) (ol : OnLower) (exQ : Quality) (td : Bool)
    (x : Nat × Entry) : Nat × Entry :=
  if x.2.quality > exQ ∧ td = true then (x.1, applyAction act (msgTarget ol) x.2) else x

/-- Lines 138-140: `if entry['quality'] < existing.quality:
action(entry, msg)`. -/
def condLower (act : EntryAction) (ol : OnLower) (exQ : Quality)
    (x : Nat × Entry) : Nat × Entry :=
  if x.2.quality < exQ then (x.1, applyAction act (msgLower ol) x.2) else x

/-- Lines 141-143: `if entries[0].accepted and entries[0]['quality'] >
entry['quality']: action(entry, msg)`; `head` is the current state of
`entries[0]`. -/
def condBest (act : EntryAction) (ol : OnLower) (head : Entry)
    (x : Nat × Entry) : Nat × Entry :=
  if head.disposition = .accepted ∧ head.quality > x.2.quality then
    (x.1, applyAction act (msgLowerBest ol) x.2)
  else x

/-- The loop body of lines 133-143 applied to `entries[0]` itself: the
mutations it makes to `entries[0]` are visible to every later read of
`entries[0]`. -/
def headStep (act : EntryAction) (ol : OnLower) (exQ : Quality) (td : Bool)
    (x : Nat × Entry) : Nat × Entry :=
  let x := condTarget act ol exQ td x
  let x := condLower act ol exQ x
  condBest act ol x.2 x

/-- Lines 131-143 (`if config['on_lower'] != 'skip': for entry in entries:
…`): the first iteration processes `entries[0]` and fixes the state of
`entries[0]` read by the `entries[0].accepted` test of every later
iteration (iteration `i` only mutates entry `i`). -/
def action_lower (ol : OnLower) (exQ : Quality) (td : Bool) :
    List (Nat × Entry) → List (Nat × Entry)
  | [] => []
  | e0 :: rest =>
      match entry_actions ol with
      | none => e0 :: rest
      | some act =>
          let h := headStep act ol exQ td e0
          h :: rest.map (fun x => condBest act ol h.2 (condLower act ol exQ (condTarget act ol exQ td x)))

/-- Lines 126-143 for one sorted group: accept the best entry when it beats
the stored quality (`entries[0].accept('upgraded quality')`), then run the
`on_lower` loop unless `on_lower == 'skip'`.  `target_downloaded` is the
flag set to `False` at line 107 and never reassigned. -/
def decideGroup (cfg : Config) (existing : UpgradeRecord) :
    List (Nat × Entry) → List (Nat × Entry)
  | [] => []
  | e0 :: rest =>
      let e0 :=
        if e0.2.quality > existing.quality then
          (e0.1, applyAction .accept "upgraded quality" e0.2)
        else e0
      if cfg.on_lower = .skip then e0 :: rest
      else action_lower cfg.on_lower existing.quality false (e0 :: rest)

/-- The comparison of line 124
(`entries.sort(key=lambda e: e['quality'], reverse=True)`, a stable sort in
descending quality order). -/
def qualityGE (a b : Nat × Entry) : Prop := b.2.quality ≤ a.2.quality

instance : DecidableRel qualityGE := fun a b => Nat.decLe b.2.quality a.2.quality

/-- Lines 119-143: skip the group when no entries are within target
(`if len(entries) == 0: continue`), otherwise sort by quality descending
(line 124, stable) and decide dispositions. -/
def sortAndDecide (cfg : Config) (existing : UpgradeRecord)
    (es : List (Nat × Entry)) : List (Nat × Entry) :=
  if es.length = 0 then []
  else decideGroup cfg existing (List.insertionSort qualityGE es)

/-- Lines 107-143 for one identifier group with an existing record: the
target filtering and short-circuit of lines 109-117 (the filtering of
line 113 has no side effects, so performing it only on the non-skipped
path is equivalent to the source order), then `sortAndDecide`.  Returns
the processed entries (with their batch indices); a skipped group
contributes no updates. -/
def processGroup (cfg : Config) (existing : UpgradeRecord)
    (entries : List (Nat × Entry)) : List (Nat × Entry) :=
  match cfg.target with
  | none => sortAndDecide cfg existing entries
  | some tgt =>
      if existing.quality > tgt.quality ∨ tgt.allows existing.quality = true then []
      else sortAndDecide cfg existing (entries.filter (fun x => tgt.allows x.2.quality))

/-- The grouping key of an indexed batch entry. -/
def entryKey (cfg : Config) (x : Nat × Entry) : Option String :=
  resolvedKey cfg.identified_by x.2

/-- The `for identifier, entries in grouped_entries.items()` body of the
filter phase (lines 98-143): skip empty groups and groups with no existing
record, otherwise decide via `processGroup`. -/
def groupUpdates (cfg : Config) (store : Store) :
    String × List (Nat × Entry) → List (Nat × Entry)
  | (_, []) => []
  | (identifier, e0 :: rest) =>
      match storeFind store identifier with
      | none => []
      | some existing => processGroup cfg existing (e0 :: rest)

/-- All updates of one filter run: the groups of the indexed batch, each
processed by `groupUpdates`. -/
def filterUpdates (cfg : Config) (store : Store) (l : List (Nat × Entry)) :
    List (Nat × Entry) :=
  (groupByKey (entryKey cfg) l).flatMap (groupUpdates cfg store)

/-- The state of the entry at a given batch index after the run: the
processed version when the index was touched, the original otherwise (this
models the in-place mutation of the shared entry objects). -/
def rebuild (updates : List (Nat × Entry)) (x : Nat × Entry) : Entry :=
  match updates.find? (fun u => u.1 == x.1) with
  | some u => u.2
  | none => x.2

/-- `LazyUpgrade.on_task_filter(task, config)`: returns immediately on a
falsy config; groups the batch by identifier; for each non-empty group with
an existing record, decides dispositions via `processGroup`; the batch
comes back with the collected per-index updates applied. -/
def on_task_filter (raw : RawConfig) (store : Store) (batch : List Entry) :
    List Entry :=
  if raw.truthy = false then batch
  else batch.enum.map (rebuild (filterUpdates (prepare_config raw) store batch.enum))

/-- `LazyUpgrade.on_task_learn(task, config)`: no-op unless tracking;
groups the accepted entries by identifier; per group, sorts by quality
descending, takes the best entry, inserts a new record when none exists
(`EntryUpgrade()` sets `added` at construction) and otherwise skips when
the stored quality is strictly greater, else updates quality, title and
`added`.  The prefetch of records is modelled by looking up the store
threaded through the fold, which agrees with the source because group
identifiers are pairwise distinct.  `now` models `datetime.now()`.
`learnGroup` is the loop body for one identifier group. -/
def learnGroup (now : Nat) (st : Store) : String × List Entry → Store
  | (_, []) => st
  | (identifier, e0 :: rest) =>
      match List.insertionSort (fun a b : Entry => b.quality ≤ a.quality) (e0 :: rest) with
      | [] => st
      | best :: _ =>
          match storeFind st identifier with
          | none =>
              st ++ [(identifier, ⟨best.title, best.quality, none, now⟩)]
          | some existing =>
              if existing.quality > best.quality then st
              else storeSet st identifier
                { existing with quality := best.quality, title := best.title, added := now }

/-- `LazyUpgrade.on_task_learn(task, config)`: see `learnGroup`. -/
def on_task_learn (raw : RawConfig) (now : Nat) (accepted : List Entry)
    (store : Store) : Store :=
  let cfg := prepare_config raw
  if cfg.tracking = false then store
  else
    let groups := group_entries accepted cfg.identified_by
    groups.foldl (learnGroup now) store

/-- A fresh pending entry, used by the concrete test inputs. -/
def mkEntry (title : String) (id : Option String) (q : Quality) : Entry :=
  { title := title, nativeId := id, render := fun _ => "", quality := q,
    disposition := .pending, reason := "", log := [] }

/-- A stored record with timestamp `0`, used by the concrete test inputs. -/
def mkRec (title : String) (q : Quality) : UpgradeRecord :=
  ⟨title, q, none, 0⟩

/-! ## Basic facts about disposition actions -/

theorem applyAction_quality (a : EntryAction) (m : String) (e : Entry) :
    (applyAction a m e).quality = e.quality := rfl

theorem applyAction_title (a : EntryAction) (m : String) (e : Entry) :
    (applyAction a m e).title = e.title := rfl

theorem applyAction_nativeId (a : EntryAction) (m : String) (e : Entry) :
    (applyAction a m e).nativeId = e.nativeId := rfl

theorem applyAction_render (a : EntryAction) (m : String) (e : Entry) :
    (applyAction a m e).render = e.render := rfl

theorem applyAction_log (a : EntryAction) (m : String) (e : Entry) :
    (applyAction a m e).log = e.log ++ [(a, m)] := rfl

/-- Line 107 sets `target_downloaded = False` and nothing ever reassigns it,
so the guard of lines 135-137 can never hold. -/
theorem condTarget_false (act : EntryAction) (ol : OnLower) (exQ : Quality)
    (x : Nat × Entry) : condTarget act ol exQ false x = x := by
  simp [condTarget]

theorem condTarget_fst (act : EntryAction) (ol : OnLower) (exQ : Quality)
    (td : Bool) (x : Nat × Entry) : (condTarget act ol exQ td x).1 = x.1 := by
  unfold condTarget; split <;> rfl

theorem condLower_fst (act : EntryAction) (ol : OnLower) (exQ : Quality)
    (x : Nat × Entry) : (condLower act ol exQ x).1 = x.1 := by
  unfold condLower; split <;> rfl

theorem condBest_fst (act : EntryAction) (ol : OnLower) (head : Entry)
    (x : Nat × Entry) : (condBest act ol head x).1 = x.1 := by
  unfold condBest; split <;> rfl

theorem condLower_quality (act : EntryAction) (ol : OnLower) (exQ : Quality)
    (x : Nat × Entry) : (condLower act ol exQ x).2.quality = x.2.quality := by
  unfold condLower; split <;> rfl

theorem condBest_quality (act : EntryAction) (ol : OnLower) (head : Entry)
    (x : Nat × Entry) : (condBest act ol head x).2.quality = x.2.quality := by
  unfold condBest; split <;> rfl

/-- `condBest` applied to the head itself never fires: the quality test is
strict. -/
theorem condBest_self (act : EntryAction) (ol : OnLower) (x : Nat × Entry) :
    condBest act ol x.2 x = x := by
  unfold condBest
  split
  · next h => exact absurd h.2 (lt_irrefl _)
  · rfl

/-! ## The grouping stage -/

theorem findGroup_nil (k : String) : findGroup ([] : List (String × List α)) k = none := rfl

theorem findGroup_cons (k1 k' : String) (g : List α) (rest : List (String × List α)) :
    findGroup ((k1, g) :: rest) k' = if k1 = k' then some g else findGroup rest k' := by
  unfold findGroup
  rw [List.find?_cons]
  by_cases h : k1 = k'
  · simp [h]
  · simp only [if_neg h]
    have : ((k1, g).1 == k') = false := beq_eq_false_iff_ne.mpr h
    rw [this]

/-- Effect of one `insertGrouped` on group lookup. -/
theorem findGroup_insertGrouped (k k' : String) (x : α)
    (acc : List (String × List α)) :
    findGroup (insertGrouped k x acc) k' =
      if k' = k then some (((findGroup acc k).getD []) ++ [x]) else findGroup acc k' := by
  induction acc with
  | nil =>
      by_cases h : k' = k
      · subst h; simp [insertGrouped, findGroup_cons, findGroup_nil]
      · simp only [insertGrouped, findGroup_cons, findGroup_nil, if_neg h]
        rw [if_neg (fun hc : k = k' => h hc.symm)]
  | cons p rest ih =>
      obtain ⟨kp, g⟩ := p
      by_cases hpk : kp = k
      · subst hpk
        rw [show insertGrouped kp x ((kp, g) :: rest) = (kp, g ++ [x]) :: rest by
          simp [insertGrouped]]
        by_cases h : k' = kp
        · subst h
          simp [findGroup_cons]
        · rw [findGroup_cons, if_neg (fun hc : kp = k' => h hc.symm), if_neg h,
            findGroup_cons, if_neg (fun hc : kp = k' => h hc.symm)]
      · rw [show insertGrouped k x ((kp, g) :: rest) = (kp, g) :: insertGrouped k x rest by
          simp [insertGrouped, hpk]]
        by_cases h1 : kp = k'
        · subst h1
          have h2 : ¬ kp = k := hpk
          rw [findGroup_cons, if_pos rfl, if_neg (fun hc : kp = k => hpk hc),
            findGroup_cons, if_pos rfl]
        · rw [findGroup_cons, if_neg h1, ih]
          by_cases h2 : k' = k
          · subst h2
            rw [if_pos rfl, if_pos rfl, findGroup_cons, if_neg h1]
          · rw [if_neg h2, if_neg h2, findGroup_cons, if_neg h1]

/-- Combination of an already-accumulated group with the members
contributed by the remaining input. -/
def optGroup (o : Option (List α)) (l : List α) : Option (List α) :=
  match o with
  | some g => some (g ++ l)
  | none => if l.isEmpty then none else some l

theorem groupByKey_go (key : α → Option String) (l : List α) :
    ∀ (acc : List (String × List α)) (k : String),
      findGroup
          (l.foldl
            (fun acc x =>
              match key x with
              | none => acc
              | some k => insertGrouped k x acc)
            acc) k =
        optGroup (findGroup acc k) (l.filter (fun x => key x == some k)) := by
  induction l with
  | nil =>
      intro acc k
      cases h : findGroup acc k <;> simp [optGroup, h]
  | cons x rest ih =>
      intro acc k
      cases hx : key x with
      | none =>
          have hne : (key x == some k) = false := by simp [hx]
          simpa [List.foldl_cons, hx, List.filter_cons, hne] using ih acc k
      | some kx =>
          by_cases hk : kx = k
          · subst hk
            have heq : (key x == some kx) = true := by simp [hx]
            rw [List.foldl_cons, hx]
            rw [ih (insertGrouped kx x acc) kx]
            rw [findGroup_insertGrouped]
            simp only [if_pos rfl]
            have hfc : (x :: rest).filter (fun y => key y == some kx) =
                x :: rest.filter (fun y => key y == some kx) := by
              simp [List.filter_cons, heq]
            rw [hfc]
            cases h : findGroup acc kx <;> simp [optGroup, h]
          · have hne : (key x == some k) = false := by simp [hx, hk]
            rw [List.foldl_cons, hx]
            rw [ih (insertGrouped kx x acc) k]
            rw [findGroup_insertGrouped]
            rw [if_neg (fun hc : k = kx => hk hc.symm)]
            have hfc : (x :: rest).filter (fun y => key y == some k) =
                rest.filter (fun y => key y == some k) := by
              simp [List.filter_cons, hne]
            rw [hfc]

/-- Characterization of the grouping stage: the group stored under key `k`
is exactly the ordered sublist of inputs whose key resolves to `k`, and a
key with no members stores no group. -/
theorem findGroup_groupByKey (key : α → Option String) (l : List α) (k : String) :
    findGroup (groupByKey key l) k =
      (if (l.filter (fun x => key x == some k)).isEmpty then none
       else some (l.filter (fun x => key x == some k))) := by
  have h := groupByKey_go key l [] k
  rw [findGroup_nil] at h
  exact h

/-- `insertGrouped` preserves a per-group invariant. -/
theorem insertGrouped_inv (P : String → α → Prop) (k : String) (x : α)
    (acc : List (String × List α))
    (hacc : ∀ p ∈ acc, ∀ y ∈ p.2, P p.1 y) (hx : P k x) :
    ∀ p ∈ insertGrouped k x acc, ∀ y ∈ p.2, P p.1 y := by
  induction acc with
  | nil =>
      intro p hp y hy
      simp only [insertGrouped, List.mem_singleton] at hp
      subst hp
      simp only [List.mem_singleton] at hy
      subst hy
      exact hx
  | cons q rest ih =>
      obtain ⟨kq, g⟩ := q
      intro p hp y hy
      by_cases hq : kq = k
      · subst hq
        simp [insertGrouped] at hp
        rcases hp with hp | hp
        · subst hp
          simp only [List.mem_append, List.mem_singleton] at hy
          rcases hy with hy | hy
          · exact hacc (kq, g) (List.mem_cons_self _ _) y hy
          · subst hy; exact hx
        · exact hacc p (List.mem_cons_of_mem _ hp) y hy
      · simp [insertGrouped, hq] at hp
        rcases hp with hp | hp
        · subst hp
          exact hacc (kq, g) (List.mem_cons_self _ _) y hy
        · exact ih (fun p hp => hacc p (List.mem_cons_of_mem _ hp)) p hp y hy

/-- Group membership invariant for the whole grouping fold. -/
theorem groupByKey_go_inv (key : α → Option String) (P : String → α → Prop) :
    ∀ (l : List α) (acc : List (String × List α)),
      (∀ x ∈ l, ∀ k, key x = some k → P k x) →
      (∀ p ∈ acc, ∀ y ∈ p.2, P p.1 y) →
      ∀ p ∈ l.foldl
          (fun acc x =>
            match key x with
            | none => acc
            | some k => insertGrouped k x acc)
          acc,
        ∀ y ∈ p.2, P p.1 y := by
  intro l
  induction l with
  | nil => intro acc _ hacc p hp; exact hacc p hp
  | cons x rest ih =>
      intro acc hl hacc
      rw [List.foldl_cons]
      cases hx : key x with
      | none => exact ih acc (fun y hy => hl y (List.mem_cons_of_mem _ hy)) hacc
      | some kx =>
          exact ih (insertGrouped kx x acc)
            (fun y hy => hl y (List.mem_cons_of_mem _ hy))
            (insertGrouped_inv P kx x acc hacc
              (hl x (List.mem_cons_self _ _) kx hx))

/-- Every member of a group resolves to that group's key. -/
theorem groupByKey_key_of_mem (key : α → Option String) (l : List α) :
    ∀ p ∈ groupByKey key l, ∀ y ∈ p.2, key y = some p.1 :=
  groupByKey_go_inv key (fun k y => key y = some k) l []
    (fun _ _ _ h => h) (by intro p hp; cases hp)

/-- Every member of a group is an element of the grouped list. -/
theorem groupByKey_src_of_mem (key : α → Option String) (l : List α) :
    ∀ p ∈ groupByKey key l, ∀ y ∈ p.2, y ∈ l :=
  groupByKey_go_inv key (fun _ y => y ∈ l) l []
    (fun x hx _ _ => hx) (by intro p hp; cases hp)

/-- The keys produced by `insertGrouped`. -/
theorem insertGrouped_keys (k : String) (x : α) (acc : List (String × List α)) :
    (insertGrouped k x acc).map Prod.fst =
      if k ∈ acc.map Prod.fst then acc.map Prod.fst else acc.map Prod.fst ++ [k] := by
  induction acc with
  | nil => simp [insertGrouped]
  | cons q rest ih =>
      obtain ⟨kq, g⟩ := q
      by_cases hq : kq = k
      · subst hq
        simp [insertGrouped]
      · simp only [insertGrouped, if_neg hq, List.map_cons, ih]
        have hne : ¬ k = kq := fun hc => hq hc.symm
        by_cases hm : k ∈ rest.map Prod.fst
        · simp [List.mem_cons, hm, hne]
        · simp [List.mem_cons, hm, hne]

/-- The group keys are pairwise distinct. -/
theorem groupByKey_keys_nodup (key : α → Option String) (l : List α) :
    ((groupByKey key l).map Prod.fst).Nodup := by
  suffices h : ∀ (l : List α) (acc : List (String × List α)),
      (acc.map Prod.fst).Nodup →
      ((l.foldl
          (fun acc x =>
            match key x with
            | none => acc
            | some k => insertGrouped k x acc)
          acc).map Prod.fst).Nodup by
    exact h l [] List.nodup_nil
  intro l
  induction l with
  | nil => intro acc h; exact h
  | cons x rest ih =>
      intro acc hacc
      rw [List.foldl_cons]
      cases hx : key x with
      | none => exact ih acc hacc
      | some kx =>
          refine ih (insertGrouped kx x acc) ?_
          rw [insertGrouped_keys]
          by_cases hm : kx ∈ acc.map Prod.fst
          · simpa [hm] using hacc
          · simp [hm, List.nodup_append, hacc]

/-- With pairwise distinct keys, group membership determines lookup. -/
theorem findGroup_of_mem (gs : List (String × List α))
    (hnd : (gs.map Prod.fst).Nodup) (k : String) (g : List α)
    (hm : (k, g) ∈ gs) : findGroup gs k = some g := by
  induction gs with
  | nil => cases hm
  | cons q rest ih =>
      obtain ⟨kq, gq⟩ := q
      rcases List.mem_cons.mp hm with h | h
      · obtain ⟨h1, h2⟩ := Prod.mk.injEq .. ▸ h
        rw [findGroup_cons]
        simp only [Prod.mk.injEq] at h
        rw [if_pos h.1.symm, h.2]
      · have hk : kq ≠ k := by
          intro hc
          subst hc
          have : kq ∈ rest.map Prod.fst := by
            exact List.mem_map.mpr ⟨(kq, g), h, rfl⟩
          simp only [List.map_cons, List.nodup_cons] at hnd
          exact hnd.1 this
        rw [findGroup_cons, if_neg hk]
        simp only [List.map_cons, List.nodup_cons] at hnd
        exact ih hnd.2 h

/-! ## Store lemmas -/

theorem storeFind_append_ne (st : Store) (k k' : String) (r : UpgradeRecord)
    (h : k' ≠ k) : storeFind (st ++ [(k', r)]) k = storeFind st k := by
  unfold storeFind
  rw [List.find?_append]
  cases hf : st.find? (fun p => p.1 == k) with
  | some p => rfl
  | none =>
      have : ((k', r).1 == k) = false := beq_eq_false_iff_ne.mpr h
      simp [List.find?, this]

theorem storeFind_cons (a : String) (b : UpgradeRecord) (rest : Store) (k : String) :
    storeFind ((a, b) :: rest) k = if a = k then some b else storeFind rest k := by
  unfold storeFind
  rw [List.find?_cons]
  by_cases h : a = k
  · simp [h]
  · have h2 : ((a, b).1 == k) = false := beq_eq_false_iff_ne.mpr h
    rw [h2, if_neg h]

theorem storeSet_cons (a : String) (b : UpgradeRecord) (rest : Store)
    (k : String) (r : UpgradeRecord) :
    storeSet ((a, b) :: rest) k r =
      (if a = k then (k, r) else (a, b)) :: storeSet rest k r := rfl

theorem storeFind_storeSet_ne (st : Store) (k k' : String) (r : UpgradeRecord)
    (h : k' ≠ k) : storeFind (storeSet st k' r) k = storeFind st k := by
  induction st with
  | nil => rfl
  | cons p rest ih =>
      obtain ⟨kp, rp⟩ := p
      rw [storeSet_cons]
      by_cases hp : kp = k'
      · subst hp
        rw [if_pos rfl, storeFind_cons, storeFind_cons, if_neg h, ih]
        by_cases hk : kp = k
        · exact absurd hk h
        · rw [if_neg hk]
      · rw [if_neg hp, storeFind_cons, storeFind_cons]
        by_cases hk : kp = k
        · rw [if_pos hk, if_pos hk]
        · rw [if_neg hk, if_neg hk, ih]

theorem storeFind_storeSet_self (st : Store) (k : String) (r : UpgradeRecord)
    (h : (storeFind st k).isSome = true) :
    storeFind (storeSet st k r) k = some r := by
  induction st with
  | nil => simp [storeFind] at h
  | cons p rest ih =>
      obtain ⟨kp, rp⟩ := p
      rw [storeSet_cons]
      by_cases hp : kp = k
      · rw [if_pos hp, storeFind_cons, if_pos rfl]
      · rw [if_neg hp, storeFind_cons, if_neg hp]
        rw [storeFind_cons, if_neg hp] at h
        exact ih h

/-! ## The learn stage -/


theorem learnGroup_mono (now : Nat) (st : Store) (g : String × List Entry)
    (k : String) (rec : UpgradeRecord) (h : storeFind st k = some rec) :
    ∃ rec', storeFind (learnGroup now st g) k = some rec' ∧
      rec.quality ≤ rec'.quality := by
  obtain ⟨kg, es⟩ := g
  cases es with
  | nil => exact ⟨rec, h, le_refl _⟩
  | cons e0 etl =>
      simp only [learnGroup]
      cases hs : List.insertionSort (fun a b : Entry => b.quality ≤ a.quality) (e0 :: etl) with
      | nil => exact ⟨rec, h, le_refl _⟩
      | cons best stl =>
          dsimp only
          by_cases hk : kg = k
          · subst hk
            rw [h]
            dsimp only
            by_cases hq : rec.quality > best.quality
            · rw [if_pos hq]
              exact ⟨rec, h, le_refl _⟩
            · rw [if_neg hq]
              refine ⟨_, storeFind_storeSet_self st kg _ (by rw [h]; rfl), ?_⟩
              exact le_of_not_lt hq
          · cases hf : storeFind st kg with
            | none =>
                dsimp only
                exact ⟨rec, by rw [storeFind_append_ne st k kg _ hk, h], le_refl _⟩
            | some ex =>
                dsimp only
                by_cases hq : ex.quality > best.quality
                · rw [if_pos hq]
                  exact ⟨rec, h, le_refl _⟩
                · rw [if_neg hq]
                  exact ⟨rec, by rw [storeFind_storeSet_ne st k kg _ hk, h], le_refl _⟩

theorem learnGroup_preserves (now : Nat) (st : Store) (g : String × List Entry)
    (k : String) (rec : UpgradeRecord) (h : storeFind st k = some rec)
    (hcase : g.1 ≠ k ∨ ∀ e ∈ g.2, e.quality < rec.quality) :
    storeFind (learnGroup now st g) k = some rec := by
  obtain ⟨kg, es⟩ := g
  cases es with
  | nil => exact h
  | cons e0 etl =>
      simp only [learnGroup]
      cases hs : List.insertionSort (fun a b : Entry => b.quality ≤ a.quality) (e0 :: etl) with
      | nil => exact h
      | cons best stl =>
          dsimp only
          by_cases hk : kg = k
          · subst hk
            have hlow : ∀ e ∈ e0 :: etl, e.quality < rec.quality := by
              rcases hcase with hc | hc
              · exact absurd rfl hc
              · exact hc
            have hb : best ∈ e0 :: etl := by
              have hmem : best ∈ List.insertionSort
                  (fun a b : Entry => b.quality ≤ a.quality) (e0 :: etl) := by
                rw [hs]
                exact List.mem_cons_self _ _
              exact (List.mem_insertionSort _).mp hmem
            rw [h]
            dsimp only
            rw [if_pos (hlow best hb)]
            exact h
          · cases hf : storeFind st kg with
            | none =>
                dsimp only
                rw [storeFind_append_ne st k kg _ hk]
                exact h
            | some ex =>
                dsimp only
                by_cases hq : ex.quality > best.quality
                · rw [if_pos hq]
                  exact h
                · rw [if_neg hq]
                  rw [storeFind_storeSet_ne st k kg _ hk]
                  exact h

theorem learnFold_mono (now : Nat) (groups : List (String × List Entry)) :
    ∀ (st : Store) (k : String) (rec : UpgradeRecord),
      storeFind st k = some rec →
      ∃ rec', storeFind (groups.foldl (learnGroup now) st) k = some rec' ∧
        rec.quality ≤ rec'.quality := by
  induction groups with
  | nil => intro st k rec h; exact ⟨rec, h, le_refl _⟩
  | cons g rest ih =>
      intro st k rec h
      rw [List.foldl_cons]
      obtain ⟨r1, h1, hle1⟩ := learnGroup_mono now st g k rec h
      obtain ⟨r2, h2, hle2⟩ := ih (learnGroup now st g) k r1 h1
      exact ⟨r2, h2, le_trans hle1 hle2⟩

theorem learnFold_preserves (now : Nat) (groups : List (String × List Entry)) :
    ∀ (st : Store) (k : String) (rec : UpgradeRecord),
      storeFind st k = some rec →
      (∀ p ∈ groups, p.1 = k → ∀ e ∈ p.2, e.quality < rec.quality) →
      storeFind (groups.foldl (learnGroup now) st) k = some rec := by
  induction groups with
  | nil => intro st k rec h _; exact h
  | cons g rest ih =>
      intro st k rec h hlow
      rw [List.foldl_cons]
      have h1 : storeFind (learnGroup now st g) k = some rec := by
        refine learnGroup_preserves now st g k rec h ?_
        by_cases hk : g.1 = k
        · exact Or.inr (hlow g (List.mem_cons_self _ _) hk)
        · exact Or.inl hk
      exact ih (learnGroup now st g) k rec h1
        (fun p hp => hlow p (List.mem_cons_of_mem _ hp))

theorem on_task_learn_mono (raw : RawConfig) (now : Nat) (accepted : List Entry)
    (st : Store) (k : String) (rec : UpgradeRecord)
    (h : storeFind st k = some rec) :
    ∃ rec', storeFind (on_task_learn raw now accepted st) k = some rec' ∧
      rec.quality ≤ rec'.quality := by
  unfold on_task_learn
  by_cases ht : (prepare_config raw).tracking = false
  · rw [if_pos ht]
    exact ⟨rec, h, le_refl _⟩
  · rw [if_neg ht]
    exact learnFold_mono now _ st k rec h

theorem on_task_learn_frozen (raw : RawConfig) (now : Nat) (accepted : List Entry)
    (store : Store) (k : String) (rec : UpgradeRecord)
    (hrec : storeFind store k = some rec)
    (hlow : ∀ e ∈ accepted,
      resolvedKey (prepare_config raw).identified_by e = some k →
        e.quality < rec.quality) :
    storeFind (on_task_learn raw now accepted store) k = some rec := by
  unfold on_task_learn
  by_cases ht : (prepare_config raw).tracking = false
  · rw [if_pos ht]
    exact hrec
  · rw [if_neg ht]
    refine learnFold_preserves now _ store k rec hrec ?_
    intro p hp hpk e he
    have hsrc := groupByKey_src_of_mem
      (fun e => resolvedKey (prepare_config raw).identified_by e) accepted p hp e he
    have hkey := groupByKey_key_of_mem
      (fun e => resolvedKey (prepare_config raw).identified_by e) accepted p hp e he
    have hkey2 : resolvedKey (prepare_config raw).identified_by e = some p.1 := hkey
    exact hlow e hsrc (hpk ▸ hkey2)

def c3store : Store := [("a", ⟨"old", 5, none, 0⟩)]

/-- C3, counterexample: with a stored record of quality `5` and a single
accepted entry of equal quality `5` but a different title, the learn phase
does not leave the record unchanged: the guard of line 173 skips only when
the stored quality is strictly greater, so on equality the title and the
`added` timestamp are rewritten. -/
theorem c3_counterexample :
    storeFind (on_task_learn (RawConfig.bool true) 9 [mkEntry "new" (some "a") 5] c3store)
        "a" = some ⟨"new", 5, none, 9⟩ ∧
      storeFind c3store "a" = some ⟨"old", 5, none, 0⟩ ∧
      (⟨"new", 5, none, 9⟩ : UpgradeRecord) ≠ ⟨"old", 5, none, 0⟩ :=
  ⟨by decide, by decide, by decide⟩

/-- C3 (amended): in the learn phase, an identifier's record is left
entirely unchanged (quality, title and `added`) whenever every accepted
entry resolving to that identifier has quality strictly below the stored
quality; when the best accepted quality is greater than or equal to the
stored one the record is rewritten. -/
theorem c3_record_unchanged_when_strictly_greater (raw : RawConfig) (now : Nat)
    (accepted : List Entry) (store : Store) (k : String) (rec : UpgradeRecord)
    (hrec : storeFind store k = some rec)
    (hlow : ∀ e ∈ accepted,
      resolvedKey (prepare_config raw).identified_by e = some k →
        e.quality < rec.quality) :
    storeFind (on_task_learn raw now accepted store) k = some rec :=
  on_task_learn_frozen raw now accepted store k rec hrec hlow

/-- Witness for C3 (amended) at a concrete input. -/
theorem c3_record_unchanged_when_strictly_greater_witness :
    storeFind (on_task_learn (RawConfig.bool true) 9 [mkEntry "new" (some "a") 4] c3store)
      "a" = some ⟨"old", 5, none, 0⟩ :=
  c3_record_unchanged_when_strictly_greater (RawConfig.bool true) 9
    [mkEntry "new" (some "a") 4] c3store "a" ⟨"old", 5, none, 0⟩
    (by decide) (by decide)

/-- C2: the claim says a boolean `false` config disables the plugin
entirely.  The filter phase indeed returns immediately (`if not config`),
but `on_task_learn` lacks that guard: `prepare_config(False)` yields the
default config with `tracking=True`, so the learn phase still groups the
accepted entries and writes to the store.  At the failing input below the
learn phase inserts a record although the config is `false`. -/
theorem c2_learn_writes_when_config_false :
    on_task_filter (RawConfig.bool false) [] [mkEntry "t" (some "a") 3] =
        [mkEntry "t" (some "a") 3] ∧
      on_task_learn (RawConfig.bool false) 5 [mkEntry "t" (some "a") 3] [] =
        [("a", ⟨"t", 3, none, 5⟩)] :=
  ⟨rfl, by decide⟩

/-- C6: for every identifier and every sequence of learn-phase invocations,
the stored quality is monotonically non-decreasing: whenever a record for
the identifier exists, after the sequence the identifier still has a record
and its quality is greater than or equal to the one before. -/
theorem c6_stored_quality_monotone (raw : RawConfig)
    (runs : List (Nat × List Entry)) (store : Store) (k : String)
    (rec : UpgradeRecord) (h : storeFind store k = some rec) :
    ∃ rec', storeFind
        (runs.foldl (fun st p => on_task_learn raw p.1 p.2 st) store) k =
          some rec' ∧
      rec.quality ≤ rec'.quality := by
  induction runs generalizing store rec with
  | nil => exact ⟨rec, h, le_refl _⟩
  | cons r rest ih =>
      rw [List.foldl_cons]
      obtain ⟨r1, h1, hle1⟩ := on_task_learn_mono raw r.1 r.2 store k rec h
      obtain ⟨r2, h2, hle2⟩ := ih _ r1 h1
      exact ⟨r2, h2, le_trans hle1 hle2⟩

/-- Witness for C6 at a concrete two-invocation sequence. -/
theorem c6_stored_quality_monotone_witness :
    (storeFind
        ([((1 : Nat), [mkEntry "x" (some "a") 5]), (2, [mkEntry "y" (some "a") 4])].foldl
          (fun st p => on_task_learn (RawConfig.bool true) p.1 p.2 st)
          [("a", mkRec "old" 3)]) "a").isSome = true ∧
      (mkRec "old" 3).quality ≤
        ((storeFind
          ([((1 : Nat), [mkEntry "x" (some "a") 5]), (2, [mkEntry "y" (some "a") 4])].foldl
            (fun st p => on_task_learn (RawConfig.bool true) p.1 p.2 st)
            [("a", mkRec "old" 3)]) "a").getD (mkRec "old" 3)).quality := by
  obtain ⟨r, hr, hq⟩ := c6_stored_quality_monotone (RawConfig.bool true)
    [((1 : Nat), [mkEntry "x" (some "a") 5]), (2, [mkEntry "y" (some "a") 4])]
    [("a", mkRec "old" 3)] "a" (mkRec "old" 3) (by decide)
  rw [hr]
  exact ⟨rfl, by rw [Option.getD_some]; exact hq⟩

/-- A successful group lookup is a membership. -/
theorem mem_of_findGroup_eq_some (gs : List (String × List α)) (k : String)
    (g : List α) (h : findGroup gs k = some g) : (k, g) ∈ gs := by
  unfold findGroup at h
  cases hf : gs.find? (fun p => p.1 == k) with
  | none => rw [hf] at h; cases h
  | some q =>
      rw [hf] at h
      have hp := List.mem_of_find?_eq_some hf
      have hfs := @List.find?_some _ (fun r : String × List α => r.1 == k) q gs hf
      have hbeq : q.1 = k := beq_iff_eq.mp hfs
      have hg : q.2 = g := by simpa using h
      have hpk : q = (k, g) := Prod.ext hbeq hg
      rw [hpk] at hp
      exact hp

/-- C8: grouping determinism.  (1) The group stored under key `k` is
exactly the ordered sublist of batch items whose resolved identifier
case-folds to `k` — membership is determined by the case-folded identifier
and the original relative order is preserved; (2) items sharing a group
have equal resolved identifiers; (3) items of equal (present) resolved
identifier share a group; (4) items whose identifier is missing or empty
belong to no group. -/
theorem c8_grouping_determinism (entries : List Entry) (identified_by : String) :
    (∀ k, findGroup (group_entries entries identified_by) k =
        (if (entries.filter (fun e => resolvedKey identified_by e == some k)).isEmpty
         then none
         else some (entries.filter (fun e => resolvedKey identified_by e == some k))))
  ∧ (∀ e1 e2 k g, findGroup (group_entries entries identified_by) k = some g →
        e1 ∈ g → e2 ∈ g →
        resolvedKey identified_by e1 = resolvedKey identified_by e2)
  ∧ (∀ e1 e2 k, e1 ∈ entries → e2 ∈ entries →
        resolvedKey identified_by e1 = some k →
        resolvedKey identified_by e2 = some k →
        ∃ g, findGroup (group_entries entries identified_by) k = some g ∧
          e1 ∈ g ∧ e2 ∈ g)
  ∧ (∀ e, resolvedKey identified_by e = none →
        ∀ k g, findGroup (group_entries entries identified_by) k = some g →
          e ∉ g) := by
  unfold group_entries
  have hchar := findGroup_groupByKey
    (fun e => resolvedKey identified_by e) entries
  have hkey := groupByKey_key_of_mem
    (fun e => resolvedKey identified_by e) entries
  refine ⟨fun k => hchar k, ?_, ?_, ?_⟩
  · intro e1 e2 k g hg h1 h2
    have hgrp := mem_of_findGroup_eq_some _ k g hg
    have k1 : resolvedKey identified_by e1 = some k := hkey (k, g) hgrp e1 h1
    have k2 : resolvedKey identified_by e2 = some k := hkey (k, g) hgrp e2 h2
    rw [k1, k2]
  · intro e1 e2 k h1 h2 hk1 hk2
    have hm1 : e1 ∈ entries.filter (fun e => resolvedKey identified_by e == some k) :=
      List.mem_filter.mpr ⟨h1, by simp [hk1]⟩
    have hm2 : e2 ∈ entries.filter (fun e => resolvedKey identified_by e == some k) :=
      List.mem_filter.mpr ⟨h2, by simp [hk2]⟩
    refine ⟨entries.filter (fun e => resolvedKey identified_by e == some k),
      ?_, hm1, hm2⟩
    rw [hchar k, if_neg ?_]
    intro hemp
    rw [List.isEmpty_iff] at hemp
    rw [hemp] at hm1
    cases hm1
  · intro e he k g hg hmem
    have hgrp := mem_of_findGroup_eq_some _ k g hg
    have hk : resolvedKey identified_by e = some k := hkey (k, g) hgrp e hmem
    rw [he] at hk
    cases hk

def c8entries : List Entry :=
  [mkEntry "t1" (some "A") 1, mkEntry "t2" (some "a") 2, mkEntry "t3" none 3]

/-- Witness for C8: two items whose identifiers agree up to case share the
group of the case-folded key, in batch order; the id-less item is absent. -/
theorem c8_grouping_determinism_witness :
    findGroup (group_entries c8entries "auto") "a" =
      some [mkEntry "t1" (some "A") 1, mkEntry "t2" (some "a") 2] := by
  have h := (c8_grouping_determinism c8entries "auto").1 "a"
  rw [h]
  rfl

/-! ## The filter stage: structure of the decisions -/

/-- Fields of an entry that no disposition action changes. -/
def coreEq (a b : Entry) : Prop :=
  a.title = b.title ∧ a.nativeId = b.nativeId ∧ a.render = b.render ∧
    a.quality = b.quality

theorem coreEq_refl (a : Entry) : coreEq a a := ⟨rfl, rfl, rfl, rfl⟩

theorem coreEq_trans {a b c : Entry} (h1 : coreEq a b) (h2 : coreEq b c) :
    coreEq a c :=
  ⟨h1.1.trans h2.1, h1.2.1.trans h2.2.1, h1.2.2.1.trans h2.2.2.1,
    h1.2.2.2.trans h2.2.2.2⟩

theorem coreEq_applyAction (a : EntryAction) (m : String) (e : Entry) :
    coreEq e (applyAction a m e) := ⟨rfl, rfl, rfl, rfl⟩

/-- Index-and-core preservation between a group element and its processed
form. -/
def liftCore (x u : Nat × Entry) : Prop := x.1 = u.1 ∧ coreEq x.2 u.2

theorem liftCore_refl (x : Nat × Entry) : liftCore x x := ⟨rfl, coreEq_refl _⟩

theorem liftCore_trans {x y z : Nat × Entry} (h1 : liftCore x y)
    (h2 : liftCore y z) : liftCore x z :=
  ⟨h1.1.trans h2.1, coreEq_trans h1.2 h2.2⟩

theorem condTarget_liftCore (act : EntryAction) (ol : OnLower) (exQ : Quality)
    (td : Bool) (x : Nat × Entry) : liftCore x (condTarget act ol exQ td x) := by
  unfold condTarget
  split
  · exact ⟨rfl, coreEq_applyAction _ _ _⟩
  · exact liftCore_refl x

theorem condLower_liftCore (act : EntryAction) (ol : OnLower) (exQ : Quality)
    (x : Nat × Entry) : liftCore x (condLower act ol exQ x) := by
  unfold condLower
  split
  · exact ⟨rfl, coreEq_applyAction _ _ _⟩
  · exact liftCore_refl x

theorem condBest_liftCore (act : EntryAction) (ol : OnLower) (head : Entry)
    (x : Nat × Entry) : liftCore x (condBest act ol head x) := by
  unfold condBest
  split
  · exact ⟨rfl, coreEq_applyAction _ _ _⟩
  · exact liftCore_refl x

theorem headStep_liftCore (act : EntryAction) (ol : OnLower) (exQ : Quality)
    (td : Bool) (x : Nat × Entry) : liftCore x (headStep act ol exQ td x) := by
  unfold headStep
  exact liftCore_trans (condTarget_liftCore act ol exQ td x)
    (liftCore_trans (condLower_liftCore act ol exQ _)
      (condBest_liftCore act ol _ _))

/-- Every processed entry of the `on_lower` loop comes from a group member
at the same index with the same immutable fields. -/
theorem action_lower_prov (ol : OnLower) (exQ : Quality) (td : Bool)
    (s : List (Nat × Entry)) :
    ∀ u ∈ action_lower ol exQ td s, ∃ x ∈ s, liftCore x u := by
  cases s with
  | nil => intro u hu; cases hu
  | cons e0 rest =>
      unfold action_lower
      cases ha : entry_actions ol with
      | none =>
          intro u hu
          exact ⟨u, hu, liftCore_refl u⟩
      | some act =>
          intro u hu
          rcases List.mem_cons.mp hu with hu | hu
          · subst hu
            exact ⟨e0, List.mem_cons_self _ _, headStep_liftCore act ol exQ td e0⟩
          · obtain ⟨x, hx, hfx⟩ := List.mem_map.mp hu
            refine ⟨x, List.mem_cons_of_mem _ hx, ?_⟩
            rw [← hfx]
            exact liftCore_trans (condTarget_liftCore act ol exQ td x)
              (liftCore_trans (condLower_liftCore act ol exQ _)
                (condBest_liftCore act ol _ _))

/-- Every decided entry comes from a group member at the same index with
the same immutable fields. -/
theorem decideGroup_prov (cfg : Config) (ex : UpgradeRecord)
    (s : List (Nat × Entry)) :
    ∀ u ∈ decideGroup cfg ex s, ∃ x ∈ s, liftCore x u := by
  cases s with
  | nil => intro u hu; cases hu
  | cons e0 rest =>
      intro u hu
      simp only [decideGroup] at hu
      set e0' := if e0.2.quality > ex.quality then
          (e0.1, applyAction .accept "upgraded quality" e0.2)
        else e0 with he0
      have hcore0 : liftCore e0 e0' := by
        rw [he0]
        split
        · exact ⟨rfl, coreEq_applyAction _ _ _⟩
        · exact liftCore_refl e0
      by_cases hsk : cfg.on_lower = .skip
      · rw [if_pos hsk] at hu
        rcases List.mem_cons.mp hu with hu | hu
        · subst hu
          exact ⟨e0, List.mem_cons_self _ _, hcore0⟩
        · exact ⟨u, List.mem_cons_of_mem _ hu, liftCore_refl u⟩
      · rw [if_neg hsk] at hu
        obtain ⟨x, hx, hcx⟩ := action_lower_prov cfg.on_lower ex.quality false _ u hu
        rcases List.mem_cons.mp hx with hx | hx
        · subst hx
          exact ⟨e0, List.mem_cons_self _ _, liftCore_trans hcore0 hcx⟩
        · exact ⟨x, List.mem_cons_of_mem _ hx, hcx⟩

/-- Every update produced for a group comes from a group member at the same
index with the same immutable fields. -/
theorem processGroup_prov (cfg : Config) (ex : UpgradeRecord)
    (g : List (Nat × Entry)) :
    ∀ u ∈ processGroup cfg ex g, ∃ x ∈ g, liftCore x u := by
  intro u hu
  unfold processGroup at hu
  have hsub : ∀ (es : List (Nat × Entry)), (∀ x ∈ es, x ∈ g) →
      u ∈ sortAndDecide cfg ex es → ∃ x ∈ g, liftCore x u := by
    intro es hes hu
    unfold sortAndDecide at hu
    by_cases hz : es.length = 0
    · rw [if_pos hz] at hu; cases hu
    · rw [if_neg hz] at hu
      obtain ⟨x, hx, hcx⟩ := decideGroup_prov cfg ex _ u hu
      exact ⟨x, hes x ((List.mem_insertionSort _).mp hx), hcx⟩
  cases hcfg : cfg.target with
  | none =>
      rw [hcfg] at hu
      dsimp only at hu
      exact hsub g (fun x hx => hx) hu
  | some tgt =>
      rw [hcfg] at hu
      dsimp only at hu
      by_cases hsc : ex.quality > tgt.quality ∨ tgt.allows ex.quality = true
      · rw [if_pos hsc] at hu; cases hu
      · rw [if_neg hsc] at hu
        exact hsub _ (fun x hx => (List.mem_filter.mp hx).1) hu

/-- Updates of a group come from the group's members. -/
theorem groupUpdates_prov (cfg : Config) (store : Store)
    (g : String × List (Nat × Entry)) :
    ∀ u ∈ groupUpdates cfg store g, ∃ x ∈ g.2, liftCore x u := by
  obtain ⟨k, es⟩ := g
  cases es with
  | nil => intro u hu; cases hu
  | cons e0 rest =>
      simp only [groupUpdates]
      cases hf : storeFind store k with
      | none =>
          intro u hu
          dsimp only at hu
          cases hu
      | some ex =>
          intro u hu
          dsimp only at hu
          exact processGroup_prov cfg ex _ u hu

/-- Lines 115-117: a group whose record already beats or satisfies the
target is skipped entirely — it contributes no updates. -/
theorem groupUpdates_skip (cfg : Config) (store : Store) (k : String)
    (es : List (Nat × Entry)) (tgt : Target) (rec : UpgradeRecord)
    (hcfg : cfg.target = some tgt)
    (hrec : storeFind store k = some rec)
    (hsat : rec.quality > tgt.quality ∨ tgt.allows rec.quality = true) :
    groupUpdates cfg store (k, es) = [] := by
  cases es with
  | nil => rfl
  | cons e0 rest =>
      simp only [groupUpdates]
      rw [hrec]
      dsimp only
      unfold processGroup
      rw [hcfg]
      dsimp only
      rw [if_pos hsat]

/-- C5: in every filter-phase run with a target configured, if an
identifier's existing record already exceeds the target quality or
satisfies the target requirement, then every batch item resolving to that
identifier passes through the filter phase completely unchanged — no
disposition is applied to the group, regardless of the batch contents. -/
theorem c5_target_short_circuit (raw : RawConfig) (store : Store)
    (batch : List Entry) (tgt : Target) (k : String) (rec : UpgradeRecord)
    (i : Nat) (e : Entry)
    (hcfg : (prepare_config raw).target = some tgt)
    (hrec : storeFind store k = some rec)
    (hsat : rec.quality > tgt.quality ∨ tgt.allows rec.quality = true)
    (hget : batch[i]? = some e)
    (hkey : resolvedKey (prepare_config raw).identified_by e = some k) :
    (on_task_filter raw store batch)[i]? = some e := by
  unfold on_task_filter
  by_cases htr : raw.truthy = false
  · rw [if_pos htr]
    exact hget
  · rw [if_neg htr]
    rw [List.getElem?_map, List.getElem?_enum, hget]
    simp only [Option.map_some']
    have hnone :
        ((groupByKey (entryKey (prepare_config raw)) batch.enum).flatMap
          (groupUpdates (prepare_config raw) store)).find?
            (fun u => u.1 == i) = none := by
      rw [List.find?_eq_none]
      intro u hu hbeq
      have hui : u.1 = i := beq_iff_eq.mp hbeq
      obtain ⟨gstar, hgs, hug⟩ := List.mem_flatMap.mp hu
      obtain ⟨kg, es⟩ := gstar
      obtain ⟨x, hx, hcx⟩ := groupUpdates_prov _ store (kg, es) u hug
      have hxkey : resolvedKey (prepare_config raw).identified_by x.2 = some kg := by
        have h := groupByKey_key_of_mem
          (entryKey (prepare_config raw)) batch.enum (kg, es) hgs x hx
        exact h
      have hxsrc : x ∈ batch.enum :=
        groupByKey_src_of_mem _ batch.enum (kg, es) hgs x hx
      have hxi : x.1 = i := hcx.1.trans hui
      have hxe : x.2 = e := by
        have hx2 : batch[x.1]? = some x.2 := by
          have := List.mk_mem_enum_iff_getElem?.mp (show (x.1, x.2) ∈ batch.enum from hxsrc)
          exact this
        rw [hxi] at hx2
        rw [hget] at hx2
        exact (Option.some.injEq _ _ ▸ hx2).symm
      have hkk : kg = k := by
        rw [hxe] at hxkey
        rw [hkey] at hxkey
        exact (Option.some.injEq _ _ ▸ hxkey).symm
      rw [hkk] at hug
      rw [groupUpdates_skip (prepare_config raw) store k es tgt rec hcfg hrec hsat] at hug
      cases hug
    unfold rebuild filterUpdates
    dsimp only
    rw [hnone]

def c5tgt : Target := ⟨1080, fun q => decide (1080 ≤ q)⟩

def c5raw : RawConfig := RawConfig.obj none none (some c5tgt) none

def c5batch : List Entry := [mkEntry "t" (some "a") 2160]

/-- Witness for C5: record at 1080 satisfies the `>=1080` requirement, so a
2160 batch item passes through unchanged. -/
theorem c5_target_short_circuit_witness :
    (on_task_filter c5raw [("a", mkRec "old" 1080)] c5batch)[0]? =
      some (mkEntry "t" (some "a") 2160) :=
  c5_target_short_circuit c5raw [("a", mkRec "old" 1080)] c5batch c5tgt "a"
    (mkRec "old" 1080) 0 (mkEntry "t" (some "a") 2160)
    rfl (by decide) (Or.inr (by decide)) rfl rfl

/-! ## The filter stage: which messages can be logged -/

theorem msgLower_ne_msgTarget : ∀ ol ol' : OnLower, msgLower ol ≠ msgTarget ol' := by
  decide

theorem msgLowerBest_ne_msgTarget : ∀ ol ol' : OnLower, msgLowerBest ol ≠ msgTarget ol' := by
  decide

theorem upgraded_ne_msgTarget : ∀ ol : OnLower, "upgraded quality" ≠ msgTarget ol := by
  decide

theorem msgLower_ne_upgraded : ∀ ol : OnLower, msgLower ol ≠ "upgraded quality" := by
  decide

theorem msgLowerBest_ne_upgraded : ∀ ol : OnLower, msgLowerBest ol ≠ "upgraded quality" := by
  decide

/-- An entry whose log never mentions the `already at target quality`
message of line 136. -/
def okLog (e : Entry) : Prop :=
  ∀ p ∈ e.log, ∀ ol : OnLower, p.2 ≠ msgTarget ol

theorem okLog_applyAction (a : EntryAction) (m : String) (e : Entry)
    (he : okLog e) (hm : ∀ ol : OnLower, m ≠ msgTarget ol) :
    okLog (applyAction a m e) := by
  intro p hp ol
  rw [applyAction_log] at hp
  rcases List.mem_append.mp hp with hp | hp
  · exact he p hp ol
  · rw [List.mem_singleton] at hp
    subst hp
    exact hm ol

theorem okLog_condLower (act : EntryAction) (ol : OnLower) (exQ : Quality)
    (x : Nat × Entry) (h : okLog x.2) : okLog (condLower act ol exQ x).2 := by
  unfold condLower
  split
  · exact okLog_applyAction _ _ _ h (msgLower_ne_msgTarget ol)
  · exact h

theorem okLog_condBest (act : EntryAction) (ol : OnLower) (head : Entry)
    (x : Nat × Entry) (h : okLog x.2) : okLog (condBest act ol head x).2 := by
  unfold condBest
  split
  · exact okLog_applyAction _ _ _ h (msgLowerBest_ne_msgTarget ol)
  · exact h

theorem okLog_headStep (act : EntryAction) (ol : OnLower) (exQ : Quality)
    (x : Nat × Entry) (h : okLog x.2) :
    okLog (headStep act ol exQ false x).2 := by
  unfold headStep
  rw [condTarget_false]
  exact okLog_condBest act ol _ _ (okLog_condLower act ol exQ x h)

theorem okLog_action_lower (ol : OnLower) (exQ : Quality)
    (s : List (Nat × Entry)) (hs : ∀ x ∈ s, okLog x.2) :
    ∀ u ∈ action_lower ol exQ false s, okLog u.2 := by
  cases s with
  | nil => intro u hu; cases hu
  | cons e0 rest =>
      unfold action_lower
      cases ha : entry_actions ol with
      | none => intro u hu; exact hs u hu
      | some act =>
          intro u hu
          rcases List.mem_cons.mp hu with hu | hu
          · subst hu
            exact okLog_headStep act ol exQ e0 (hs e0 (List.mem_cons_self _ _))
          · obtain ⟨x, hx, hfx⟩ := List.mem_map.mp hu
            rw [← hfx]
            rw [condTarget_false]
            exact okLog_condBest act ol _ _
              (okLog_condLower act ol exQ x (hs x (List.mem_cons_of_mem _ hx)))

theorem okLog_decideGroup (cfg : Config) (ex : UpgradeRecord)
    (s : List (Nat × Entry)) (hs : ∀ x ∈ s, okLog x.2) :
    ∀ u ∈ decideGroup cfg ex s, okLog u.2 := by
  cases s with
  | nil => intro u hu; cases hu
  | cons e0 rest =>
      intro u hu
      simp only [decideGroup] at hu
      set e0' := if e0.2.quality > ex.quality then
          (e0.1, applyAction .accept "upgraded quality" e0.2)
        else e0 with he0
      have hok0 : okLog e0'.2 := by
        rw [he0]
        split
        · exact okLog_applyAction _ _ _ (hs e0 (List.mem_cons_self _ _))
            upgraded_ne_msgTarget
        · exact hs e0 (List.mem_cons_self _ _)
      have hs' : ∀ x ∈ e0' :: rest, okLog x.2 := by
        intro x hx
        rcases List.mem_cons.mp hx with hx | hx
        · subst hx; exact hok0
        · exact hs x (List.mem_cons_of_mem _ hx)
      by_cases hsk : cfg.on_lower = .skip
      · rw [if_pos hsk] at hu
        exact hs' u hu
      · rw [if_neg hsk] at hu
        exact okLog_action_lower cfg.on_lower ex.quality _ hs' u hu

theorem okLog_processGroup (cfg : Config) (ex : UpgradeRecord)
    (g : List (Nat × Entry)) (hg : ∀ x ∈ g, okLog x.2) :
    ∀ u ∈ processGroup cfg ex g, okLog u.2 := by
  intro u hu
  unfold processGroup at hu
  have hsub : ∀ (es : List (Nat × Entry)), (∀ x ∈ es, okLog x.2) →
      u ∈ sortAndDecide cfg ex es → okLog u.2 := by
    intro es hes hu
    unfold sortAndDecide at hu
    by_cases hz : es.length = 0
    · rw [if_pos hz] at hu; cases hu
    · rw [if_neg hz] at hu
      refine okLog_decideGroup cfg ex _ ?_ u hu
      intro x hx
      exact hes x ((List.mem_insertionSort _).mp hx)
  cases hcfg : cfg.target with
  | none =>
      rw [hcfg] at hu
      dsimp only at hu
      exact hsub g hg hu
  | some tgt =>
      rw [hcfg] at hu
      dsimp only at hu
      by_cases hsc : ex.quality > tgt.quality ∨ tgt.allows ex.quality = true
      · rw [if_pos hsc] at hu; cases hu
      · rw [if_neg hsc] at hu
        exact hsub _ (fun x hx => hg x (List.mem_filter.mp hx).1) hu

theorem okLog_groupUpdates (cfg : Config) (store : Store)
    (g : String × List (Nat × Entry)) (hg : ∀ x ∈ g.2, okLog x.2) :
    ∀ u ∈ groupUpdates cfg store g, okLog u.2 := by
  obtain ⟨k, es⟩ := g
  cases es with
  | nil => intro u hu; cases hu
  | cons e0 rest =>
      simp only [groupUpdates]
      cases hf : storeFind store k with
      | none =>
          intro u hu
          dsimp only at hu
          cases hu
      | some ex =>
          intro u hu
          dsimp only at hu
          exact okLog_processGroup cfg ex _ hg u hu

/-- Output entries of the filter phase are either batch members or group
updates. -/
theorem on_task_filter_mem (raw : RawConfig) (store : Store)
    (batch : List Entry) (e' : Entry)
    (hm : e' ∈ on_task_filter raw store batch) :
    e' ∈ batch ∨
      ∃ g ∈ groupByKey (entryKey (prepare_config raw)) batch.enum,
        ∃ u ∈ groupUpdates (prepare_config raw) store g, e' = u.2 := by
  unfold on_task_filter at hm
  by_cases htr : raw.truthy = false
  · rw [if_pos htr] at hm
    exact Or.inl hm
  · rw [if_neg htr] at hm
    obtain ⟨x, hx, hfx⟩ := List.mem_map.mp hm
    unfold rebuild filterUpdates at hfx
    cases hf : ((groupByKey (entryKey (prepare_config raw)) batch.enum).flatMap
          (groupUpdates (prepare_config raw) store)).find?
        (fun u => u.1 == x.1) with
    | none =>
        rw [hf] at hfx
        dsimp only at hfx
        left
        rw [← hfx]
        have hx2 : batch[x.1]? = some x.2 :=
          List.mk_mem_enum_iff_getElem?.mp (show (x.1, x.2) ∈ batch.enum from hx)
        exact List.getElem?_mem hx2
    | some u =>
        rw [hf] at hfx
        dsimp only at hfx
        right
        have hu := List.mem_of_find?_eq_some hf
        obtain ⟨g, hg, hug⟩ := List.mem_flatMap.mp hu
        exact ⟨g, hg, u, hug, hfx.symm⟩

/-- C9: the `target_downloaded` flag of line 107 is initialised `False` and
never reassigned, so the action branch of lines 135-137 never fires: in any
filter-phase run on a batch of fresh entries, no entry ends with a logged
action whose message is the `already at target quality` message, for any
store, configuration and batch. -/
theorem c9_target_branch_dead (raw : RawConfig) (store : Store)
    (batch : List Entry) (hp : ∀ e ∈ batch, e.log = []) :
    ∀ e' ∈ on_task_filter raw store batch, ∀ p ∈ e'.log, ∀ ol : OnLower,
      p.2 ≠ msgTarget ol := by
  intro e' he'
  rcases on_task_filter_mem raw store batch e' he' with h | ⟨g, hg, u, hug, hue⟩
  · intro p hpp
    rw [hp e' h] at hpp
    cases hpp
  · have hok : okLog u.2 := by
      refine okLog_groupUpdates _ store g ?_ u hug
      intro x hx
      have hxsrc : x ∈ batch.enum :=
        groupByKey_src_of_mem _ batch.enum g hg x hx
      have hx2 : batch[x.1]? = some x.2 :=
        List.mk_mem_enum_iff_getElem?.mp (show (x.1, x.2) ∈ batch.enum from hxsrc)
      intro p hpp
      rw [hp x.2 (List.getElem?_mem hx2)] at hpp
      cases hpp
    rw [hue]
    exact hok

def c9raw : RawConfig := RawConfig.obj none none none (some .reject)

def c9store : Store := [("a", mkRec "old" 720)]

def c9batch : List Entry :=
  [mkEntry "t1" (some "a") 1080, mkEntry "t2" (some "a") 480]

/-- Witness for C9 at a concrete run that logs two actions. -/
theorem c9_target_branch_dead_witness :
    ((on_task_filter c9raw c9store c9batch).all
      (fun e => e.log.all
        (fun p => decide (∀ ol : OnLower, p.2 ≠ msgTarget ol)))) = true := by
  have h := c9_target_branch_dead c9raw c9store c9batch (by decide)
  rw [List.all_eq_true]
  intro e he
  rw [List.all_eq_true]
  intro p hp
  exact decide_eq_true (h e he p hp)

/-! ## The filter stage: number of actions applied per entry -/

theorem applyAction_log_len (a : EntryAction) (m : String) (e : Entry) :
    (applyAction a m e).log.length = e.log.length + 1 := by
  rw [applyAction_log, List.length_append, List.length_singleton]

theorem condLower_log_len (act : EntryAction) (ol : OnLower) (exQ : Quality)
    (x : Nat × Entry) :
    (condLower act ol exQ x).2.log.length ≤ x.2.log.length + 1 := by
  unfold condLower
  split
  · rw [applyAction_log_len]
  · exact Nat.le_succ _

theorem condBest_log_len (act : EntryAction) (ol : OnLower) (head : Entry)
    (x : Nat × Entry) :
    (condBest act ol head x).2.log.length ≤ x.2.log.length + 1 := by
  unfold condBest
  split
  · rw [applyAction_log_len]
  · exact Nat.le_succ _

theorem headStep_log_len (act : EntryAction) (ol : OnLower) (exQ : Quality)
    (x : Nat × Entry) :
    (headStep act ol exQ false x).2.log.length ≤ x.2.log.length + 1 := by
  simp only [headStep]
  rw [condTarget_false, condBest_self]
  exact condLower_log_len act ol exQ x

/-- Each decided entry carries at most two more logged actions than the
group member it comes from: the three guarded actions of the loop can fire
at most twice for one entry (the target branch is dead, and the best-entry
accept of line 129 excludes both loop conditions on the head). -/
theorem decideGroup_log_len (cfg : Config) (ex : UpgradeRecord)
    (s : List (Nat × Entry)) :
    ∀ u ∈ decideGroup cfg ex s, ∃ x ∈ s, u.2.log.length ≤ x.2.log.length + 2 := by
  cases s with
  | nil => intro u hu; cases hu
  | cons e0 rest =>
      intro u hu
      simp only [decideGroup] at hu
      set e0' := if e0.2.quality > ex.quality then
          (e0.1, applyAction .accept "upgraded quality" e0.2)
        else e0 with he0
      have h0 : e0'.2.log.length ≤ e0.2.log.length + 1 := by
        rw [he0]
        split
        · rw [applyAction_log_len]
        · exact Nat.le_succ _
      by_cases hsk : cfg.on_lower = .skip
      · rw [if_pos hsk] at hu
        rcases List.mem_cons.mp hu with hu | hu
        · subst hu
          exact ⟨e0, List.mem_cons_self _ _, le_trans h0 (Nat.succ_le_succ (Nat.le_succ _))⟩
        · exact ⟨u, List.mem_cons_of_mem _ hu, Nat.le_add_right _ _⟩
      · rw [if_neg hsk] at hu
        unfold action_lower at hu
        cases ha : entry_actions cfg.on_lower with
        | none =>
            rw [ha] at hu
            rcases List.mem_cons.mp hu with hu | hu
            · subst hu
              exact ⟨e0, List.mem_cons_self _ _,
                le_trans h0 (Nat.succ_le_succ (Nat.le_succ _))⟩
            · exact ⟨u, List.mem_cons_of_mem _ hu, Nat.le_add_right _ _⟩
        | some act =>
            rw [ha] at hu
            dsimp only at hu
            rcases List.mem_cons.mp hu with hu | hu
            · subst hu
              refine ⟨e0, List.mem_cons_self _ _, ?_⟩
              refine le_trans (headStep_log_len act cfg.on_lower ex.quality e0') ?_
              exact Nat.succ_le_succ h0
            · obtain ⟨x, hx, hfx⟩ := List.mem_map.mp hu
              refine ⟨x, List.mem_cons_of_mem _ hx, ?_⟩
              rw [← hfx, condTarget_false]
              refine le_trans (condBest_log_len act cfg.on_lower _ _) ?_
              exact Nat.succ_le_succ (condLower_log_len act cfg.on_lower ex.quality x)

theorem processGroup_log_len (cfg : Config) (ex : UpgradeRecord)
    (g : List (Nat × Entry)) :
    ∀ u ∈ processGroup cfg ex g, ∃ x ∈ g, u.2.log.length ≤ x.2.log.length + 2 := by
  intro u hu
  unfold processGroup at hu
  have hsub : ∀ (es : List (Nat × Entry)), (∀ x ∈ es, x ∈ g) →
      u ∈ sortAndDecide cfg ex es →
      ∃ x ∈ g, u.2.log.length ≤ x.2.log.length + 2 := by
    intro es hes hu
    unfold sortAndDecide at hu
    by_cases hz : es.length = 0
    · rw [if_pos hz] at hu; cases hu
    · rw [if_neg hz] at hu
      obtain ⟨x, hx, hlen⟩ := decideGroup_log_len cfg ex _ u hu
      exact ⟨x, hes x ((List.mem_insertionSort _).mp hx), hlen⟩
  cases hcfg : cfg.target with
  | none =>
      rw [hcfg] at hu
      dsimp only at hu
      exact hsub g (fun x hx => hx) hu
  | some tgt =>
      rw [hcfg] at hu
      dsimp only at hu
      by_cases hsc : ex.quality > tgt.quality ∨ tgt.allows ex.quality = true
      · rw [if_pos hsc] at hu; cases hu
      · rw [if_neg hsc] at hu
        exact hsub _ (fun x hx => (List.mem_filter.mp hx).1) hu

theorem groupUpdates_log_len (cfg : Config) (store : Store)
    (g : String × List (Nat × Entry)) :
    ∀ u ∈ groupUpdates cfg store g,
      ∃ x ∈ g.2, u.2.log.length ≤ x.2.log.length + 2 := by
  obtain ⟨k, es⟩ := g
  cases es with
  | nil => intro u hu; cases hu
  | cons e0 rest =>
      simp only [groupUpdates]
      cases hf : storeFind store k with
      | none =>
          intro u hu
          dsimp only at hu
          cases hu
      | some ex =>
          intro u hu
          dsimp only at hu
          exact processGroup_log_len cfg ex _ u hu

def c1raw : RawConfig := RawConfig.obj none none none (some .reject)

def c1store : Store := [("a", mkRec "old" 720)]

def c1batch : List Entry :=
  [mkEntry "t1" (some "a") 1080, mkEntry "t2" (some "a") 480]

/-- C1, counterexample: with `on_lower = reject`, a stored quality of 720
and a batch of a 1080 item and a 480 item of the same identifier, the 480
item is both strictly below the stored quality and strictly below the
accepted best entry, so the loop of lines 133-143 applies the reject action
to it twice — the claim that at most one disposition action is applied per
item fails. -/
theorem c1_counterexample :
    ¬ ∀ e' ∈ on_task_filter c1raw c1store c1batch, e'.log.length ≤ 1 := by
  decide

/-- C1 (amended): in every filter-phase run on fresh entries, at most two
disposition actions are applied to any one item — one per independently
evaluated `on_lower` condition that holds (plus the possible line-129
accept on the best item, which excludes the loop conditions for it). -/
theorem c1_at_most_two_actions (raw : RawConfig) (store : Store)
    (batch : List Entry) (hp : ∀ e ∈ batch, e.log = []) :
    ∀ e' ∈ on_task_filter raw store batch, e'.log.length ≤ 2 := by
  intro e' he'
  rcases on_task_filter_mem raw store batch e' he' with h | ⟨g, hg, u, hug, hue⟩
  · rw [hp e' h]
    exact Nat.zero_le _
  · obtain ⟨x, hx, hlen⟩ := groupUpdates_log_len _ store g u hug
    have hxsrc : x ∈ batch.enum :=
      groupByKey_src_of_mem _ batch.enum g hg x hx
    have hx2 : batch[x.1]? = some x.2 :=
      List.mk_mem_enum_iff_getElem?.mp (show (x.1, x.2) ∈ batch.enum from hxsrc)
    have hxp : x.2.log = [] := hp x.2 (List.getElem?_mem hx2)
    rw [hue]
    refine le_trans hlen ?_
    rw [hxp]
    exact le_refl _

/-- Witness for C1 (amended) at the double-action input. -/
theorem c1_at_most_two_actions_witness :
    ((on_task_filter c1raw c1store c1batch).all
      (fun e => decide (e.log.length ≤ 2))) = true := by
  have h := c1_at_most_two_actions c1raw c1store c1batch (by decide)
  rw [List.all_eq_true]
  intro e he
  exact decide_eq_true (h e he)

def c4raw : RawConfig := RawConfig.obj none none none (some .reject)

def c4store : Store := [("show.s01e01", mkRec "old" 720)]

def c4batch : List Entry := [mkEntry "t" (some "show.s01e01") 480]

/-- C4, counterexample: in Scenario C (stored 720p, one 480p item,
`on_lower = reject`, no target) the reason the code attaches comes from
line 139 and reads `"on_lower reject because lower then existing quality"`,
not `"lower than existing quality"` as the claim states. -/
theorem c4_counterexample :
    ((on_task_filter c4raw c4store c4batch).map (fun e => e.reason)) ≠
      ["lower than existing quality"] := by
  decide

/-- C4 (amended): in Scenario C the single 480 item is rejected, exactly
one action is applied, and its reason is exactly
`"on_lower reject because lower then existing quality"`; the filter phase
performs no store writes (it consumes the store read-only and returns only
entries).  In general, the action the lower-than-stored condition of lines
138-140 applies carries the reason
`"on_lower <on_lower> because lower then existing quality"`. -/
theorem c4_lower_reason :
    (((on_task_filter c4raw c4store c4batch).map
        (fun e => (e.disposition, e.reason, e.log))) =
      [(Disposition.rejected, msgLower .reject,
        [(EntryAction.reject, msgLower .reject)])])
  ∧ ∀ (act : EntryAction) (ol : OnLower) (exQ : Quality) (x : Nat × Entry),
      x.2.quality < exQ →
      (condLower act ol exQ x).2 = applyAction act (msgLower ol) x.2 := by
  constructor
  · decide
  · intro act ol exQ x h
    unfold condLower
    rw [if_pos h]

/-- Witness for C4 (amended). -/
theorem c4_lower_reason_witness :
    (condLower .reject .reject 720 (0, mkEntry "t" (some "show.s01e01") 480)).2 =
      applyAction .reject (msgLower .reject) (mkEntry "t" (some "show.s01e01") 480) :=
  (c4_lower_reason).2 .reject .reject 720
    (0, mkEntry "t" (some "show.s01e01") 480) (by decide)

def c7store : Store := [("show.s01e01", mkRec "old" 720)]

def c7batch : List Entry := [mkEntry "t" (some "show.s01e01") 1080]

/-- C7: for a sorted group with an existing record, the first entry ends
with the line-129 accept — an `accept` action with reason exactly
`"upgraded quality"` in its log — iff its quality is strictly greater than
the stored quality (the `on_lower` loop can never attach that reason, its
messages differ, and neither loop condition fires on an accepted best
entry).  Concretely, Scenario B (stored 720p, one 1080p item, no target,
`on_lower = skip`) ends with the item accepted, reason
`"upgraded quality"`. -/
theorem c7_best_upgrade_iff :
    (∀ (cfg : Config) (rec : UpgradeRecord) (x : Nat × Entry)
        (t : List (Nat × Entry)), x.2.log = [] →
      ∃ y ys, decideGroup cfg rec (x :: t) = y :: ys ∧
        (((EntryAction.accept, "upgraded quality") ∈ y.2.log) ↔
          rec.quality < x.2.quality))
  ∧ ((on_task_filter (RawConfig.bool true) c7store c7batch).map
      (fun e => (e.disposition, e.reason))) =
      [(Disposition.accepted, "upgraded quality")] := by
  constructor
  · intro cfg rec x t hx
    simp only [decideGroup]
    set e0' := if x.2.quality > rec.quality then
        (x.1, applyAction .accept "upgraded quality" x.2)
      else x with he0
    have hlog : ((EntryAction.accept, "upgraded quality") ∈ e0'.2.log) ↔
        rec.quality < x.2.quality := by
      rw [he0]
      by_cases hq : x.2.quality > rec.quality
      · rw [if_pos hq]
        refine iff_of_true ?_ hq
        rw [applyAction_log, hx]
        exact List.mem_singleton.mpr rfl
      · rw [if_neg hq]
        refine iff_of_false ?_ hq
        rw [hx]
        exact List.not_mem_nil _
    by_cases hsk : cfg.on_lower = .skip
    · rw [if_pos hsk]
      exact ⟨e0', t, rfl, hlog⟩
    · rw [if_neg hsk]
      unfold action_lower
      cases ha : entry_actions cfg.on_lower with
      | none => exact ⟨e0', t, rfl, hlog⟩
      | some act =>
          dsimp only
          refine ⟨headStep act cfg.on_lower rec.quality false e0', _, rfl, ?_⟩
          have hh : headStep act cfg.on_lower rec.quality false e0' =
              condLower act cfg.on_lower rec.quality e0' := by
            simp only [headStep]
            rw [condTarget_false, condBest_self]
          rw [hh]
          unfold condLower
          by_cases hlt : e0'.2.quality < rec.quality
          · rw [if_pos hlt]
            dsimp only
            rw [applyAction_log]
            constructor
            · intro hm
              rcases List.mem_append.mp hm with hm | hm
              · exact hlog.mp hm
              · rw [List.mem_singleton] at hm
                exact absurd (congrArg Prod.snd hm).symm
                  (msgLower_ne_upgraded cfg.on_lower)
            · intro hr
              exact List.mem_append.mpr (Or.inl (hlog.mpr hr))
          · rw [if_neg hlt]
            exact hlog
  · decide

/-- Witness for C7: the accepted head of the decided Scenario-B group. -/
theorem c7_best_upgrade_iff_witness :
    (EntryAction.accept, "upgraded quality") ∈
      ((decideGroup ⟨"auto", true, OnLower.skip, none⟩ (mkRec "old" 720)
        [(0, mkEntry "t" (some "show.s01e01") 1080)]).headD
          (0, mkEntry "" none 0)).2.log := by
  obtain ⟨y, ys, heq, hiff⟩ := (c7_best_upgrade_iff).1
    ⟨"auto", true, OnLower.skip, none⟩ (mkRec "old" 720)
    (0, mkEntry "t" (some "show.s01e01") 1080) [] rfl
  rw [heq]
  simpa using hiff.mpr (by decide)

/-! ## Idempotence of the filter phase -/

theorem applyAction_disposition (a : EntryAction) (m : String) (e : Entry) :
    (applyAction a m e).disposition = a.toDisposition := rfl

theorem condLower_disp (act : EntryAction) (ol : OnLower) (exQ : Quality)
    (x : Nat × Entry) :
    (condLower act ol exQ x).2.disposition =
      if x.2.quality < exQ then act.toDisposition else x.2.disposition := by
  unfold condLower
  by_cases h : x.2.quality < exQ
  · rw [if_pos h, if_pos h]
    rfl
  · rw [if_neg h, if_neg h]

theorem condBest_disp (act : EntryAction) (ol : OnLower) (head : Entry)
    (x : Nat × Entry) :
    (condBest act ol head x).2.disposition =
      if head.disposition = .accepted ∧ head.quality > x.2.quality then
        act.toDisposition
      else x.2.disposition := by
  unfold condBest
  by_cases h : head.disposition = .accepted ∧ head.quality > x.2.quality
  · rw [if_pos h, if_pos h]
    rfl
  · rw [if_neg h, if_neg h]

/-- The loop body on the head itself reduces to the lower-than-stored
test: the target branch is dead and the best-entry test never fires on the
head (its quality is not strictly greater than itself). -/
theorem headStep_eq_condLower (act : EntryAction) (ol : OnLower)
    (exQ : Quality) (x : Nat × Entry) :
    headStep act ol exQ false x = condLower act ol exQ x := by
  simp only [headStep]
  rw [condTarget_false, condBest_self]

/-- Re-deciding an already decided group leaves every disposition as it
was: the group-level decisions are idempotent. -/
theorem decideGroup_disp_idem (cfg : Config) (ex : UpgradeRecord)
    (s : List (Nat × Entry)) :
    (decideGroup cfg ex (decideGroup cfg ex s)).map (fun x => x.2.disposition) =
      (decideGroup cfg ex s).map (fun x => x.2.disposition) := by
  cases s with
  | nil => rfl
  | cons x t =>
      simp only [decideGroup]
      set x' := if x.2.quality > ex.quality then
          (x.1, applyAction .accept "upgraded quality" x.2)
        else x with hx'
      have hq' : x'.2.quality = x.2.quality := by
        rw [hx']
        split <;> rfl
      have hd' : x.2.quality > ex.quality → x'.2.disposition = .accepted := by
        intro h
        rw [hx', if_pos h]
        rfl
      have hd'n : ¬ x.2.quality > ex.quality → x' = x := by
        intro h
        rw [hx', if_neg h]
      by_cases hsk : cfg.on_lower = .skip
      · rw [if_pos hsk]
        simp only [decideGroup]
        rw [if_pos hsk]
        set x'' := if x'.2.quality > ex.quality then
            (x'.1, applyAction .accept "upgraded quality" x'.2)
          else x' with hx''
        have hxx : x''.2.disposition = x'.2.disposition := by
          rw [hx'']
          by_cases h : x'.2.quality > ex.quality
          · rw [if_pos h, applyAction_disposition]
            rw [hq'] at h
            exact (hd' h).symm
          · rw [if_neg h]
        simp [hxx]
      · rw [if_neg hsk]
        unfold action_lower
        cases ha : entry_actions cfg.on_lower with
        | none =>
            dsimp only
            rw [if_neg hsk]
            set x'' := if x'.2.quality > ex.quality then
                (x'.1, applyAction .accept "upgraded quality" x'.2)
              else x' with hx''
            have hxx : x''.2.disposition = x'.2.disposition := by
              rw [hx'']
              by_cases h : x'.2.quality > ex.quality
              · rw [if_pos h, applyAction_disposition]
                rw [hq'] at h
                exact (hd' h).symm
              · rw [if_neg h]
            simp [hxx]
        | some act =>
            dsimp only
            set h1 := headStep act cfg.on_lower ex.quality false x' with hh1
            have hh1e : h1 = condLower act cfg.on_lower ex.quality x' := by
              rw [hh1]
              exact headStep_eq_condLower act cfg.on_lower ex.quality x'
            have hq1 : h1.2.quality = x.2.quality := by
              rw [hh1e, condLower_quality, hq']
            set y' := if h1.2.quality > ex.quality then
                (h1.1, applyAction .accept "upgraded quality" h1.2)
              else h1 with hy'
            rw [if_neg hsk]
            set h2 := headStep act cfg.on_lower ex.quality false y' with hh2
            have hh2e : h2 = condLower act cfg.on_lower ex.quality y' := by
              rw [hh2]
              exact headStep_eq_condLower act cfg.on_lower ex.quality y'
            have hqy : y'.2.quality = x.2.quality := by
              rw [hy']
              split
              · show (applyAction .accept "upgraded quality" h1.2).quality = x.2.quality
                rw [applyAction_quality]
                exact hq1
              · exact hq1
            have hq2 : h2.2.quality = x.2.quality := by
              rw [hh2e, condLower_quality, hqy]
            have hdisp : h2.2.disposition = h1.2.disposition := by
              rcases Nat.lt_trichotomy x.2.quality ex.quality with hlt | heq | hgt
              · have hngt : ¬ x.2.quality > ex.quality := Nat.lt_asymm hlt
                have hx'x : x' = x := hd'n hngt
                have hd1 : h1.2.disposition = act.toDisposition := by
                  rw [hh1e, condLower_disp, hq', if_pos hlt]
                rw [hh2e, condLower_disp, hqy, if_pos hlt, hd1]
              · have hngt : ¬ x.2.quality > ex.quality := by
                  rw [heq]; exact lt_irrefl _
                have hnlt : ¬ x.2.quality < ex.quality := by
                  rw [heq]; exact lt_irrefl _
                have hy'h1 : y' = h1 := by
                  rw [hy', if_neg (by rw [hq1]; exact hngt)]
                rw [hh2e, condLower_disp, hqy, if_neg hnlt, hy'h1]
              · have hnlt : ¬ x.2.quality < ex.quality := Nat.lt_asymm hgt
                have hd1 : h1.2.disposition = .accepted := by
                  rw [hh1e, condLower_disp, hq', if_neg hnlt]
                  exact hd' hgt
                have hdy : y'.2.disposition = .accepted := by
                  rw [hy', if_pos (by rw [hq1]; exact hgt)]
                  rfl
                rw [hh2e, condLower_disp, hqy, if_neg hnlt, hdy, hd1]
            simp only [List.map_cons, List.map_map]
            rw [hdisp]
            refine congrArg _ (List.map_congr_left ?_)
            intro e he
            show (condBest act cfg.on_lower h2.2
                (condLower act cfg.on_lower ex.quality
                  (condTarget act cfg.on_lower ex.quality false
                    (condBest act cfg.on_lower h1.2
                      (condLower act cfg.on_lower ex.quality
                        (condTarget act cfg.on_lower ex.quality false e)))))).2.disposition =
              (condBest act cfg.on_lower h1.2
                (condLower act cfg.on_lower ex.quality
                  (condTarget act cfg.on_lower ex.quality false e))).2.disposition
            rw [condTarget_false, condTarget_false]
            set e1' := condBest act cfg.on_lower h1.2
              (condLower act cfg.on_lower ex.quality e) with he1'
            have hqe1 : e1'.2.quality = e.2.quality := by
              rw [he1', condBest_quality, condLower_quality]
            have hrhs : e1'.2.disposition =
                if h1.2.disposition = .accepted ∧ x.2.quality > e.2.quality then
                  act.toDisposition
                else if e.2.quality < ex.quality then act.toDisposition
                else e.2.disposition := by
              rw [he1', condBest_disp, condLower_quality, condLower_disp, hq1]
            rw [condBest_disp, condLower_quality, condLower_disp, hqe1, hq2, hdisp,
              hrhs]
            by_cases hB : h1.2.disposition = .accepted ∧ x.2.quality > e.2.quality
            · rw [if_pos hB, if_pos hB]
            · rw [if_neg hB, if_neg hB]
              by_cases hL : e.2.quality < ex.quality
              · rw [if_pos hL, if_pos hL]
              · rw [if_neg hL, if_neg hL]

/-! ## Uniqueness of batch indices -/

theorem nodupFst_inj {l : List (Nat × Entry)} (h : (l.map Prod.fst).Nodup)
    {x y : Nat × Entry} (hx : x ∈ l) (hy : y ∈ l) (hxy : x.1 = y.1) : x = y := by
  induction l with
  | nil => cases hx
  | cons a rest ih =>
      rw [List.map_cons, List.nodup_cons] at h
      rcases List.mem_cons.mp hx with hx1 | hx1 <;>
        rcases List.mem_cons.mp hy with hy1 | hy1
      · rw [hx1, hy1]
      · exfalso
        apply h.1
        have hay : a.1 = y.1 := by
          rw [← hx1]
          exact hxy
        rw [hay]
        exact List.mem_map.mpr ⟨y, hy1, rfl⟩
      · exfalso
        apply h.1
        have hax : a.1 = x.1 := by
          rw [← hy1]
          exact hxy.symm
        rw [hax]
        exact List.mem_map.mpr ⟨x, hx1, rfl⟩
      · exact ih h.2 hx1 hy1

theorem enum_fst_nodup (batch : List Entry) :
    (batch.enum.map Prod.fst).Nodup := by
  rw [List.enum_map_fst]
  exact List.nodup_range _

/-- A stored group is the filter of its source list. -/
theorem group_eq_filter (key : α → Option String) (l : List α)
    (k : String) (g : List α) (hm : (k, g) ∈ groupByKey key l) :
    g = l.filter (fun x => key x == some k) := by
  have h1 := findGroup_of_mem _ (groupByKey_keys_nodup key l) k g hm
  rw [findGroup_groupByKey] at h1
  by_cases he : (l.filter (fun x => key x == some k)).isEmpty
  · rw [if_pos he] at h1
    cases h1
  · rw [if_neg he] at h1
    exact (Option.some.injEq _ _ ▸ h1).symm

theorem group_fst_nodup (cfg : Config) (l : List (Nat × Entry))
    (hnd : (l.map Prod.fst).Nodup) (k : String) (g : List (Nat × Entry))
    (hm : (k, g) ∈ groupByKey (entryKey cfg) l) :
    (g.map Prod.fst).Nodup := by
  rw [group_eq_filter (entryKey cfg) l k g hm]
  exact ((List.filter_sublist l).map Prod.fst).nodup hnd

theorem find?_fst_of_nodup (P : List (Nat × Entry))
    (hnd : (P.map Prod.fst).Nodup) (u : Nat × Entry) (hu : u ∈ P) :
    P.find? (fun v => v.1 == u.1) = some u := by
  induction P with
  | nil => cases hu
  | cons a rest ih =>
      rw [List.map_cons, List.nodup_cons] at hnd
      rcases List.mem_cons.mp hu with hu1 | hu1
      · subst hu1
        exact List.find?_cons_of_pos rest (beq_self_eq_true _)
      · have hne : ¬ ((fun v : Nat × Entry => v.1 == u.1) a) = true := by
          intro hc
          rw [beq_iff_eq] at hc
          apply hnd.1
          rw [hc]
          exact List.mem_map.mpr ⟨u, hu1, rfl⟩
        rw [List.find?_cons_of_neg rest hne]
        exact ih hnd.2 hu1

/-! ## Index preservation through the group decisions -/

theorem headStep_fst (act : EntryAction) (ol : OnLower) (exQ : Quality)
    (td : Bool) (x : Nat × Entry) : (headStep act ol exQ td x).1 = x.1 := by
  simp only [headStep]
  rw [condBest_fst, condLower_fst, condTarget_fst]

theorem action_lower_map_fst (ol : OnLower) (exQ : Quality) (td : Bool)
    (s : List (Nat × Entry)) :
    (action_lower ol exQ td s).map Prod.fst = s.map Prod.fst := by
  cases s with
  | nil => rfl
  | cons e0 rest =>
      unfold action_lower
      cases ha : entry_actions ol with
      | none => rfl
      | some act =>
          dsimp only
          rw [List.map_cons, List.map_cons, List.map_map, headStep_fst]
          refine congrArg _ (List.map_congr_left ?_)
          intro a _
          show (condBest act ol _ (condLower act ol exQ (condTarget act ol exQ td a))).1 = a.1
          rw [condBest_fst, condLower_fst, condTarget_fst]

theorem decideGroup_map_fst (cfg : Config) (ex : UpgradeRecord)
    (s : List (Nat × Entry)) :
    (decideGroup cfg ex s).map Prod.fst = s.map Prod.fst := by
  cases s with
  | nil => rfl
  | cons e0 rest =>
      simp only [decideGroup]
      set e0' := if e0.2.quality > ex.quality then
          (e0.1, applyAction .accept "upgraded quality" e0.2)
        else e0 with he0
      have h0 : e0'.1 = e0.1 := by
        rw [he0]
        split <;> rfl
      by_cases hsk : cfg.on_lower = .skip
      · rw [if_pos hsk, List.map_cons, List.map_cons, h0]
      · rw [if_neg hsk, action_lower_map_fst, List.map_cons, List.map_cons, h0]

theorem groupUpdates_fst_nodup (cfg : Config) (store : Store) (k : String)
    (g : List (Nat × Entry)) (hnd : (g.map Prod.fst).Nodup) :
    ((groupUpdates cfg store (k, g)).map Prod.fst).Nodup := by
  cases g with
  | nil => exact List.nodup_nil
  | cons e0 rest =>
      simp only [groupUpdates]
      cases hf : storeFind store k with
      | none => exact List.nodup_nil
      | some ex =>
          dsimp only
          have hs : ∀ (es : List (Nat × Entry)), (es.map Prod.fst).Nodup →
              ((sortAndDecide cfg ex es).map Prod.fst).Nodup := by
            intro es hes
            unfold sortAndDecide
            by_cases hz : es.length = 0
            · rw [if_pos hz]
              exact List.nodup_nil
            · rw [if_neg hz, decideGroup_map_fst]
              exact ((List.perm_insertionSort qualityGE es).map Prod.fst).nodup_iff.mpr hes
          unfold processGroup
          cases hcfg : cfg.target with
          | none => exact hs _ hnd
          | some tgt =>
              dsimp only
              by_cases hsc : ex.quality > tgt.quality ∨ tgt.allows ex.quality = true
              · rw [if_pos hsc]
                exact List.nodup_nil
              · rw [if_neg hsc]
                refine hs _ ?_
                exact (((e0 :: rest).filter_sublist).map Prod.fst).nodup hnd

/-- The collected updates list contains exactly one entry per touched
batch index, so looking an index up returns the group's processed entry. -/
theorem updates_find_eq (cfg : Config) (store : Store)
    (l : List (Nat × Entry)) (hnd : (l.map Prod.fst).Nodup)
    (k : String) (g : List (Nat × Entry))
    (hg : (k, g) ∈ groupByKey (entryKey cfg) l) (u : Nat × Entry)
    (hu : u ∈ groupUpdates cfg store (k, g)) :
    ((groupByKey (entryKey cfg) l).flatMap (groupUpdates cfg store)).find?
      (fun v => v.1 == u.1) = some u := by
  obtain ⟨pre, post, hsplit⟩ := List.append_of_mem hg
  have hkeys := groupByKey_keys_nodup (entryKey cfg) l
  rw [hsplit] at hkeys
  rw [List.map_append, List.map_cons] at hkeys
  rw [List.nodup_append] at hkeys
  obtain ⟨hpre_nd, hcons_nd, hdisj⟩ := hkeys
  have hknotpre : ∀ p ∈ pre, p.1 ≠ k := by
    intro p hp hc
    have : (k, g).1 ∈ List.map Prod.fst (((k, g) : String × List (Nat × Entry)) :: post) :=
      List.mem_cons_self _ _
    refine hdisj ?_ this
    rw [← hc]
    exact List.mem_map.mpr ⟨p, hp, rfl⟩
  -- facts about u
  obtain ⟨xu, hxu, hcu⟩ := groupUpdates_prov cfg store (k, g) u hu
  have hgl : (k, g) ∈ groupByKey (entryKey cfg) l := hg
  have hxu_key : entryKey cfg xu = some k :=
    groupByKey_key_of_mem (entryKey cfg) l (k, g) hgl xu hxu
  have hxu_src : xu ∈ l := groupByKey_src_of_mem (entryKey cfg) l (k, g) hgl xu hxu
  rw [hsplit, List.flatMap_append, List.flatMap_cons, List.find?_append]
  have hprenone : (pre.flatMap (groupUpdates cfg store)).find?
      (fun v => v.1 == u.1) = none := by
    rw [List.find?_eq_none]
    intro v hv hbeq
    have hvu : v.1 = u.1 := beq_iff_eq.mp hbeq
    obtain ⟨p, hp, hvp⟩ := List.mem_flatMap.mp hv
    obtain ⟨kp, gp⟩ := p
    obtain ⟨xv, hxv, hcv⟩ := groupUpdates_prov cfg store (kp, gp) v hvp
    have hpl : (kp, gp) ∈ groupByKey (entryKey cfg) l := by
      rw [hsplit]
      exact List.mem_append.mpr (Or.inl hp)
    have hxv_key : entryKey cfg xv = some kp :=
      groupByKey_key_of_mem (entryKey cfg) l (kp, gp) hpl xv hxv
    have hxv_src : xv ∈ l := groupByKey_src_of_mem (entryKey cfg) l (kp, gp) hpl xv hxv
    have hxx : xv = xu := by
      refine nodupFst_inj hnd hxv_src hxu_src ?_
      rw [hcv.1, hcu.1, hvu]
    rw [hxx, hxu_key] at hxv_key
    have : kp = k := by
      have h2 := Option.some.injEq k kp ▸ hxv_key
      exact (Option.some_inj.mp hxv_key).symm
    exact hknotpre (kp, gp) hp this
  rw [hprenone, Option.none_or]
  have hgnd : (g.map Prod.fst).Nodup := group_fst_nodup cfg l hnd k g hgl
  have hfind := find?_fst_of_nodup (groupUpdates cfg store (k, g))
    (groupUpdates_fst_nodup cfg store k g hgnd) u hu
  rw [List.find?_append, hfind]
  rfl

/-! ## Congruence of one filter run under entry replacement -/

theorem resolvedKey_coreEq (idb : String) {a b : Entry} (h : coreEq a b) :
    resolvedKey idb a = resolvedKey idb b := by
  unfold resolvedKey
  rw [h.2.1, h.2.2.1]

theorem entryKey_liftCore (cfg : Config) {x y : Nat × Entry}
    (h : liftCore x y) : entryKey cfg y = entryKey cfg x :=
  (resolvedKey_coreEq cfg.identified_by h.2).symm

theorem insertGrouped_map (φ : α → α) (k : String) (x : α)
    (acc : List (String × List α)) :
    insertGrouped k (φ x) (acc.map (fun p => (p.1, p.2.map φ))) =
      (insertGrouped k x acc).map (fun p => (p.1, p.2.map φ)) := by
  induction acc with
  | nil => rfl
  | cons p rest ih =>
      obtain ⟨kp, gp⟩ := p
      by_cases h : kp = k
      · subst h
        simp [insertGrouped]
      · simp [insertGrouped, h, ih]

theorem groupByKey_map (key : α → Option String) (φ : α → α) (l : List α)
    (hkey : ∀ x ∈ l, key (φ x) = key x) :
    groupByKey key (l.map φ) =
      (groupByKey key l).map (fun p => (p.1, p.2.map φ)) := by
  suffices h : ∀ (l : List α) (acc : List (String × List α)),
      (∀ x ∈ l, key (φ x) = key x) →
      (l.map φ).foldl
          (fun acc x =>
            match key x with
            | none => acc
            | some k => insertGrouped k x acc)
          (acc.map (fun p => (p.1, p.2.map φ))) =
        (l.foldl
          (fun acc x =>
            match key x with
            | none => acc
            | some k => insertGrouped k x acc)
          acc).map (fun p => (p.1, p.2.map φ)) by
    exact h l [] hkey
  intro l
  induction l with
  | nil => intro acc _; rfl
  | cons x rest ih =>
      intro acc hl
      rw [List.map_cons, List.foldl_cons, List.foldl_cons]
      rw [hl x (List.mem_cons_self _ _)]
      cases hx : key x with
      | none =>
          dsimp only
          exact ih acc (fun y hy => hl y (List.mem_cons_of_mem _ hy))
      | some k =>
          dsimp only
          rw [insertGrouped_map]
          exact ih (insertGrouped k x acc) (fun y hy => hl y (List.mem_cons_of_mem _ hy))

theorem orderedInsert_map (φ : Nat × Entry → Nat × Entry) (a : Nat × Entry)
    (s : List (Nat × Entry)) (ha : (φ a).2.quality = a.2.quality)
    (hs : ∀ x ∈ s, (φ x).2.quality = x.2.quality) :
    List.orderedInsert qualityGE (φ a) (s.map φ) =
      (List.orderedInsert qualityGE a s).map φ := by
  induction s with
  | nil => rfl
  | cons b t ih =>
      rw [List.map_cons, List.orderedInsert, List.orderedInsert]
      have hb : (φ b).2.quality = b.2.quality := hs b (List.mem_cons_self _ _)
      by_cases h : qualityGE a b
      · rw [if_pos h, if_pos ?hc, List.map_cons, List.map_cons]
        case hc =>
          show (φ b).2.quality ≤ (φ a).2.quality
          rw [ha, hb]
          exact h
      · rw [if_neg h, if_neg ?hc, List.map_cons]
        · exact congrArg _ (ih (fun x hx => hs x (List.mem_cons_of_mem _ hx)))
        case hc =>
          intro hc
          apply h
          show b.2.quality ≤ a.2.quality
          rw [← ha, ← hb]
          exact hc

theorem insertionSort_map (φ : Nat × Entry → Nat × Entry)
    (s : List (Nat × Entry)) (hs : ∀ x ∈ s, (φ x).2.quality = x.2.quality) :
    List.insertionSort qualityGE (s.map φ) =
      (List.insertionSort qualityGE s).map φ := by
  induction s with
  | nil => rfl
  | cons a t ih =>
      rw [List.map_cons, List.insertionSort, List.insertionSort]
      rw [ih (fun x hx => hs x (List.mem_cons_of_mem _ hx))]
      refine orderedInsert_map φ a _ (hs a (List.mem_cons_self _ _)) ?_
      intro x hx
      exact hs x (List.mem_cons_of_mem _ ((List.mem_insertionSort _).mp hx))

/-- The entry sitting at a batch index after one filter run; on untouched
indices this is the original entry. -/
def phi (raw : RawConfig) (store : Store) (batch : List Entry)
    (x : Nat × Entry) : Nat × Entry :=
  (x.1, ((on_task_filter raw store batch)[x.1]?).getD x.2)

theorem on_task_filter_of_truthy (raw : RawConfig) (store : Store)
    (batch : List Entry) (htr : ¬ raw.truthy = false) :
    on_task_filter raw store batch =
      batch.enum.map (rebuild (filterUpdates (prepare_config raw) store batch.enum)) := by
  unfold on_task_filter
  rw [if_neg htr]

theorem on_task_filter_length (raw : RawConfig) (store : Store)
    (batch : List Entry) :
    (on_task_filter raw store batch).length = batch.length := by
  unfold on_task_filter
  split
  · rfl
  · rw [List.length_map, List.enum_length]

theorem filterUpdates_liftCore (cfg : Config) (store : Store)
    (l : List (Nat × Entry)) (u : Nat × Entry)
    (hu : u ∈ filterUpdates cfg store l) : ∃ x ∈ l, liftCore x u := by
  obtain ⟨g, hg, hug⟩ := List.mem_flatMap.mp hu
  obtain ⟨kg, es⟩ := g
  obtain ⟨x, hx, hcx⟩ := groupUpdates_prov cfg store (kg, es) u hug
  exact ⟨x, groupByKey_src_of_mem (entryKey cfg) l (kg, es) hg x hx, hcx⟩

theorem rebuild_coreEq (cfg : Config) (store : Store) (l : List (Nat × Entry))
    (hnd : (l.map Prod.fst).Nodup) (x : Nat × Entry) (hx : x ∈ l) :
    coreEq x.2 (rebuild (filterUpdates cfg store l) x) := by
  unfold rebuild
  cases hf : (filterUpdates cfg store l).find? (fun u => u.1 == x.1) with
  | none => exact coreEq_refl _
  | some u =>
      dsimp only
      have hu := List.mem_of_find?_eq_some hf
      have hfs := @List.find?_some (Nat × Entry) (fun v => v.1 == x.1) u
        (filterUpdates cfg store l) hf
      have hbeq : u.1 = x.1 := beq_iff_eq.mp hfs
      obtain ⟨xu, hxu, hcu⟩ := filterUpdates_liftCore cfg store l u hu
      have hxx : xu = x := nodupFst_inj hnd hxu hx (hcu.1.trans hbeq)
      rw [hxx] at hcu
      exact hcu.2

theorem phi_liftCore (raw : RawConfig) (store : Store) (batch : List Entry)
    (htr : ¬ raw.truthy = false) (x : Nat × Entry) (hx : x ∈ batch.enum) :
    liftCore x (phi raw store batch x) := by
  unfold phi
  refine ⟨rfl, ?_⟩
  have hb : batch[x.1]? = some x.2 :=
    List.mk_mem_enum_iff_getElem?.mp (show (x.1, x.2) ∈ batch.enum by rw [Prod.mk.eta]; exact hx)
  have hxl : batch.enum[x.1]? = some x := by
    rw [List.getElem?_enum, hb, Option.map_some', Prod.mk.eta]
  have hout : (on_task_filter raw store batch)[x.1]? =
      some (rebuild (filterUpdates (prepare_config raw) store batch.enum) x) := by
    rw [on_task_filter_of_truthy raw store batch htr, List.getElem?_map, hxl,
      Option.map_some']
  rw [hout, Option.getD_some]
  exact rebuild_coreEq (prepare_config raw) store batch.enum
    (enum_fst_nodup batch) x hx

theorem out_enum_eq (raw : RawConfig) (store : Store) (batch : List Entry) :
    (on_task_filter raw store batch).enum =
      batch.enum.map (phi raw store batch) := by
  apply List.ext_getElem?
  intro n
  rw [List.getElem?_enum, List.getElem?_map, List.getElem?_enum]
  cases hb : batch[n]? with
  | none =>
      have hlen : batch.length ≤ n := List.getElem?_eq_none_iff.mp hb
      have hout : (on_task_filter raw store batch)[n]? = none := by
        refine List.getElem?_eq_none ?_
        rw [on_task_filter_length]
        exact hlen
      rw [hout]
      rfl
  | some b =>
      obtain ⟨hn, hval⟩ := List.getElem?_eq_some.mp hb
      have hn' : n < (on_task_filter raw store batch).length := by
        rw [on_task_filter_length]
        exact hn
      rw [List.getElem?_eq_getElem hn']
      simp only [Option.map_some']
      unfold phi
      dsimp only
      rw [List.getElem?_eq_getElem hn', Option.getD_some]

theorem filter_allows_map (tgt : Target) (φ : Nat × Entry → Nat × Entry)
    (g : List (Nat × Entry))
    (hq : ∀ x ∈ g, (φ x).2.quality = x.2.quality) :
    (g.map φ).filter (fun x => tgt.allows x.2.quality) =
      (g.filter (fun x => tgt.allows x.2.quality)).map φ := by
  rw [List.filter_map]
  refine congrArg _ (List.filter_congr ?_)
  intro x hx
  show tgt.allows (φ x).2.quality = tgt.allows x.2.quality
  rw [hq x hx]

/-- After one run, the entries now sitting at the indices of a sorted
group are exactly the group's processed entries: replacing each sorted
group member by its after-run state yields the decided group itself. -/
theorem map_phi_decide (raw : RawConfig) (store : Store) (batch : List Entry)
    (k : String) (g s₁ : List (Nat × Entry)) (ex : UpgradeRecord)
    (hg : (k, g) ∈ groupByKey (entryKey (prepare_config raw)) batch.enum)
    (hsub : ∀ x ∈ s₁, x ∈ g)
    (hseg : groupUpdates (prepare_config raw) store (k, g) =
      decideGroup (prepare_config raw) ex s₁)
    (htr : ¬ raw.truthy = false) :
    s₁.map (phi raw store batch) = decideGroup (prepare_config raw) ex s₁ := by
  apply List.ext_getElem?
  intro p
  have hfst : (decideGroup (prepare_config raw) ex s₁).map Prod.fst =
      s₁.map Prod.fst := decideGroup_map_fst (prepare_config raw) ex s₁
  have hlen : (decideGroup (prepare_config raw) ex s₁).length = s₁.length := by
    have h := congrArg List.length hfst
    rw [List.length_map, List.length_map] at h
    exact h
  rw [List.getElem?_map]
  by_cases hp : p < s₁.length
  · have hp' : p < (decideGroup (prepare_config raw) ex s₁).length := by
      rw [hlen]; exact hp
    rw [List.getElem?_eq_getElem hp, List.getElem?_eq_getElem hp']
    simp only [Option.map_some']
    have hufst : (decideGroup (prepare_config raw) ex s₁)[p].1 = s₁[p].1 := by
      have h := congrArg (fun t => t[p]?) hfst
      dsimp only at h
      rw [List.getElem?_map, List.getElem?_map,
        List.getElem?_eq_getElem hp, List.getElem?_eq_getElem hp'] at h
      simp only [Option.map_some'] at h
      exact (Option.some_inj.mp h)
    have hxg : s₁[p] ∈ g := hsub _ (List.getElem_mem hp)
    have hxl : s₁[p] ∈ batch.enum :=
      groupByKey_src_of_mem (entryKey (prepare_config raw)) batch.enum (k, g)
        hg _ hxg
    have humem : (decideGroup (prepare_config raw) ex s₁)[p] ∈
        groupUpdates (prepare_config raw) store (k, g) := by
      rw [hseg]
      exact List.getElem_mem hp'
    have hfind := updates_find_eq (prepare_config raw) store batch.enum
      (enum_fst_nodup batch) k g hg _ humem
    have hb : batch[(s₁[p]).1]? = some (s₁[p]).2 :=
      List.mk_mem_enum_iff_getElem?.mp
        (show ((s₁[p]).1, (s₁[p]).2) ∈ batch.enum by rw [Prod.mk.eta]; exact hxl)
    have hxl2 : batch.enum[(s₁[p]).1]? = some (s₁[p]) := by
      rw [List.getElem?_enum, hb, Option.map_some', Prod.mk.eta]
    have hout : (on_task_filter raw store batch)[(s₁[p]).1]? =
        some (rebuild (filterUpdates (prepare_config raw) store batch.enum) (s₁[p])) := by
      rw [on_task_filter_of_truthy raw store batch htr, List.getElem?_map, hxl2,
        Option.map_some']
    have hreb : rebuild (filterUpdates (prepare_config raw) store batch.enum) (s₁[p]) =
        (decideGroup (prepare_config raw) ex s₁)[p].2 := by
      unfold rebuild filterUpdates
      rw [← hufst, hfind]
    refine congrArg some ?_
    unfold phi
    rw [hout, Option.getD_some, hreb, ← hufst, Prod.mk.eta]
  · have hp' : ¬ p < (decideGroup (prepare_config raw) ex s₁).length := by
      rw [hlen]; exact hp
    rw [List.getElem?_eq_none (Nat.le_of_not_lt hp),
      List.getElem?_eq_none (Nat.le_of_not_lt hp')]
    rfl

/-- One run later, re-running the decision on a group either still
produces no updates, or decides the already-decided group again. -/
theorem groupUpdates_phi (raw : RawConfig) (store : Store) (batch : List Entry)
    (htr : ¬ raw.truthy = false) (k : String) (g : List (Nat × Entry))
    (hg : (k, g) ∈ groupByKey (entryKey (prepare_config raw)) batch.enum) :
    (groupUpdates (prepare_config raw) store (k, g) = [] ∧
      groupUpdates (prepare_config raw) store (k, g.map (phi raw store batch)) = [])
    ∨ ∃ ex s₁, storeFind store k = some ex ∧
        groupUpdates (prepare_config raw) store (k, g) =
          decideGroup (prepare_config raw) ex s₁ ∧
        groupUpdates (prepare_config raw) store (k, g.map (phi raw store batch)) =
          decideGroup (prepare_config raw) ex
            (decideGroup (prepare_config raw) ex s₁) := by
  have hqp : ∀ x ∈ g, (phi raw store batch x).2.quality = x.2.quality := by
    intro x hx
    have hl := phi_liftCore raw store batch htr x
      (groupByKey_src_of_mem (entryKey (prepare_config raw)) batch.enum (k, g) hg x hx)
    exact (hl.2.2.2.2).symm
  cases g with
  | nil => exact Or.inl ⟨rfl, rfl⟩
  | cons e0 rest =>
      cases hf : storeFind store k with
      | none =>
          refine Or.inl ⟨?_, ?_⟩
          · simp only [groupUpdates]
            rw [hf]
          · rw [List.map_cons]
            simp only [groupUpdates]
            rw [hf]
      | some ex =>
          have h1 : groupUpdates (prepare_config raw) store (k, e0 :: rest) =
              processGroup (prepare_config raw) ex (e0 :: rest) := by
            simp only [groupUpdates]
            rw [hf]
          have h2 : groupUpdates (prepare_config raw) store
                (k, (e0 :: rest).map (phi raw store batch)) =
              processGroup (prepare_config raw) ex
                ((e0 :: rest).map (phi raw store batch)) := by
            rw [List.map_cons]
            simp only [groupUpdates]
            rw [hf]
          have key : ∀ (es : List (Nat × Entry)),
              (∀ x ∈ es, x ∈ e0 :: rest) →
              processGroup (prepare_config raw) ex (e0 :: rest) =
                sortAndDecide (prepare_config raw) ex es →
              (sortAndDecide (prepare_config raw) ex es = [] ∧
                sortAndDecide (prepare_config raw) ex
                  (es.map (phi raw store batch)) = [])
              ∨ ∃ s₁,
                  sortAndDecide (prepare_config raw) ex es =
                    decideGroup (prepare_config raw) ex s₁ ∧
                  sortAndDecide (prepare_config raw) ex
                      (es.map (phi raw store batch)) =
                    decideGroup (prepare_config raw) ex
                      (decideGroup (prepare_config raw) ex s₁) := by
            intro es hes hpg
            unfold sortAndDecide
            by_cases hz : es.length = 0
            · rw [if_pos hz, if_pos (by rw [List.length_map]; exact hz)]
              exact Or.inl ⟨rfl, rfl⟩
            · rw [if_neg hz, if_neg (by rw [List.length_map]; exact hz)]
              right
              refine ⟨List.insertionSort qualityGE es, rfl, ?_⟩
              rw [insertionSort_map _ es (fun x hx => hqp x (hes x hx))]
              refine congrArg _ ?_
              refine map_phi_decide raw store batch k (e0 :: rest) _ ex hg ?_ ?_ htr
              · intro x hx
                exact hes x ((List.mem_insertionSort _).mp hx)
              · rw [h1, hpg]
                unfold sortAndDecide
                rw [if_neg hz]
          cases hcfgt : (prepare_config raw).target with
          | none =>
              have hpg1 : processGroup (prepare_config raw) ex (e0 :: rest) =
                  sortAndDecide (prepare_config raw) ex (e0 :: rest) := by
                unfold processGroup
                rw [hcfgt]
              have hpg2 : processGroup (prepare_config raw) ex
                    ((e0 :: rest).map (phi raw store batch)) =
                  sortAndDecide (prepare_config raw) ex
                    ((e0 :: rest).map (phi raw store batch)) := by
                unfold processGroup
                rw [hcfgt]
              rcases key (e0 :: rest) (fun x hx => hx) hpg1 with ⟨ha, hb⟩ | ⟨s₁, ha, hb⟩
              · exact Or.inl ⟨by rw [h1, hpg1, ha], by rw [h2, hpg2, hb]⟩
              · exact Or.inr ⟨ex, s₁, rfl, by rw [h1, hpg1, ha], by rw [h2, hpg2, hb]⟩
          | some tgt =>
              by_cases hsc : ex.quality > tgt.quality ∨ tgt.allows ex.quality = true
              · refine Or.inl ⟨?_, ?_⟩
                · rw [h1]
                  unfold processGroup
                  rw [hcfgt]
                  dsimp only
                  rw [if_pos hsc]
                · rw [h2]
                  unfold processGroup
                  rw [hcfgt]
                  dsimp only
                  rw [if_pos hsc]
              · have hpg1 : processGroup (prepare_config raw) ex (e0 :: rest) =
                    sortAndDecide (prepare_config raw) ex
                      ((e0 :: rest).filter (fun x => tgt.allows x.2.quality)) := by
                  unfold processGroup
                  rw [hcfgt]
                  dsimp only
                  rw [if_neg hsc]
                have hpg2 : processGroup (prepare_config raw) ex
                      ((e0 :: rest).map (phi raw store batch)) =
                    sortAndDecide (prepare_config raw) ex
                      (((e0 :: rest).filter (fun x => tgt.allows x.2.quality)).map
                        (phi raw store batch)) := by
                  unfold processGroup
                  rw [hcfgt]
                  dsimp only
                  rw [if_neg hsc, filter_allows_map tgt _ _ hqp]
                rcases key ((e0 :: rest).filter (fun x => tgt.allows x.2.quality))
                    (fun x hx => (List.mem_filter.mp hx).1) hpg1 with
                  ⟨ha, hb⟩ | ⟨s₁, ha, hb⟩
                · exact Or.inl ⟨by rw [h1, hpg1, ha], by rw [h2, hpg2, hb]⟩
                · exact Or.inr ⟨ex, s₁, rfl, by rw [h1, hpg1, ha], by rw [h2, hpg2, hb]⟩

theorem map_eq_getElem {β : Type} {f : Nat × Entry → β} {l₁ l₂ : List (Nat × Entry)}
    (h : l₁.map f = l₂.map f) (p : Nat) (h₁ : p < l₁.length) (h₂ : p < l₂.length) :
    f l₁[p] = f l₂[p] := by
  have h0 := congrArg (fun t => t[p]?) h
  dsimp only at h0
  rw [List.getElem?_map, List.getElem?_map, List.getElem?_eq_getElem h₁,
    List.getElem?_eq_getElem h₂] at h0
  simpa using h0

/-- C10: running the filter phase a second time on the identical store and
on the batch as the first run left it yields exactly the same disposition
for every item as the first run. -/
theorem c10_filter_idempotent (raw : RawConfig) (store : Store)
    (batch : List Entry) :
    (on_task_filter raw store (on_task_filter raw store batch)).map
        Entry.disposition =
      (on_task_filter raw store batch).map Entry.disposition := by
  by_cases htr : raw.truthy = false
  · have hid : on_task_filter raw store batch = batch := by
      unfold on_task_filter
      rw [if_pos htr]
    rw [hid, hid]
  · have hrun1 := on_task_filter_of_truthy raw store batch htr
    have hrun2 := on_task_filter_of_truthy raw store
      (on_task_filter raw store batch) htr
    have hl2 := out_enum_eq raw store batch
    have hkeyphi : ∀ x ∈ batch.enum,
        entryKey (prepare_config raw) (phi raw store batch x) =
          entryKey (prepare_config raw) x :=
      fun x hx => entryKey_liftCore (prepare_config raw)
        (phi_liftCore raw store batch htr x hx)
    have hgroups2 := groupByKey_map (entryKey (prepare_config raw))
      (phi raw store batch) batch.enum hkeyphi
    apply List.ext_getElem?
    intro j
    rw [List.getElem?_map, List.getElem?_map]
    by_cases hj : j < batch.length
    · have hlj : batch.enum[j]? = some (j, batch[j]) := by
        rw [List.getElem?_enum, List.getElem?_eq_getElem hj]
        rfl
      have houtj : (on_task_filter raw store batch)[j]? =
          some (rebuild (filterUpdates (prepare_config raw) store batch.enum)
            (j, batch[j])) := by
        rw [hrun1, List.getElem?_map]
        conv in batch.enum[j]? => rw [hlj]
        rfl
      have hl2j : (on_task_filter raw store batch).enum[j]? =
          some (phi raw store batch (j, batch[j])) := by
        rw [hl2, List.getElem?_map]
        conv in batch.enum[j]? => rw [hlj]
        rfl
      have hout2j : (on_task_filter raw store (on_task_filter raw store batch))[j]? =
          some (rebuild
            (filterUpdates (prepare_config raw) store
              (on_task_filter raw store batch).enum)
            (phi raw store batch (j, batch[j]))) := by
        rw [hrun2, List.getElem?_map]
        conv in (on_task_filter raw store batch).enum[j]? => rw [hl2j]
        rfl
      rw [houtj, hout2j]
      simp only [Option.map_some']
      refine congrArg some ?_
      have hphix : phi raw store batch (j, batch[j]) =
          (j, rebuild (filterUpdates (prepare_config raw) store batch.enum)
            (j, batch[j])) := by
        unfold phi
        dsimp only
        rw [houtj, Option.getD_some]
      cases hf1 : (filterUpdates (prepare_config raw) store batch.enum).find?
          (fun u => u.1 == j) with
      | none =>
          have ho : rebuild (filterUpdates (prepare_config raw) store batch.enum)
              (j, batch[j]) = batch[j] := by
            unfold rebuild
            dsimp only
            rw [hf1]
          have hf2 : (filterUpdates (prepare_config raw) store
              (on_task_filter raw store batch).enum).find?
                (fun u => u.1 == j) = none := by
            rw [List.find?_eq_none]
            intro v hv hbeq
            have hvj : v.1 = j := beq_iff_eq.mp hbeq
            unfold filterUpdates at hv
            obtain ⟨g2, hg2, hvg⟩ := List.mem_flatMap.mp hv
            rw [hl2, hgroups2] at hg2
            obtain ⟨⟨k, g⟩, hkg, hg2eq⟩ := List.mem_map.mp hg2
            rw [← hg2eq] at hvg
            rcases groupUpdates_phi raw store batch htr k g hkg with
              ⟨ha, hb⟩ | ⟨ex, s₁, hfx, ha, hb⟩
            · rw [hb] at hvg
              cases hvg
            · rw [hb] at hvg
              have hvfst : v.1 ∈ (decideGroup (prepare_config raw) ex
                  (decideGroup (prepare_config raw) ex s₁)).map Prod.fst :=
                List.mem_map.mpr ⟨v, hvg, rfl⟩
              rw [decideGroup_map_fst] at hvfst
              obtain ⟨u', hu', hu'fst⟩ := List.mem_map.mp hvfst
              have hu'mem : u' ∈ filterUpdates (prepare_config raw) store batch.enum := by
                unfold filterUpdates
                refine List.mem_flatMap.mpr ⟨(k, g), hkg, ?_⟩
                rw [ha]
                exact hu'
              have := List.find?_eq_none.mp hf1 u' hu'mem
              apply this
              show (u'.1 == j) = true
              rw [hu'fst, hvj]
              exact beq_self_eq_true _
          have hreb2 : rebuild
              (filterUpdates (prepare_config raw) store
                (on_task_filter raw store batch).enum)
              (phi raw store batch (j, batch[j])) =
              (phi raw store batch (j, batch[j])).2 := by
            unfold rebuild
            have hfst : (phi raw store batch (j, batch[j])).1 = j := rfl
            rw [hfst, hf2]
          rw [hreb2, hphix, ho]
      | some u =>
          have hu1 : u.1 = j := beq_iff_eq.mp
            (@List.find?_some (Nat × Entry) (fun v => v.1 == j) u _ hf1)
          have humem : u ∈ filterUpdates (prepare_config raw) store batch.enum :=
            List.mem_of_find?_eq_some hf1
          have ho : rebuild (filterUpdates (prepare_config raw) store batch.enum)
              (j, batch[j]) = u.2 := by
            unfold rebuild
            dsimp only
            rw [hf1]
          unfold filterUpdates at humem
          obtain ⟨gp, hgp, hug⟩ := List.mem_flatMap.mp humem
          obtain ⟨k, g⟩ := gp
          rcases groupUpdates_phi raw store batch htr k g hgp with
            ⟨ha, hb⟩ | ⟨ex, s₁, hfx, ha, hb⟩
          · rw [ha] at hug
            cases hug
          · rw [ha] at hug
            have hfst2 : (decideGroup (prepare_config raw) ex
                (decideGroup (prepare_config raw) ex s₁)).map Prod.fst =
                (decideGroup (prepare_config raw) ex s₁).map Prod.fst :=
              decideGroup_map_fst _ _ _
            have hdisp2 := decideGroup_disp_idem (prepare_config raw) ex s₁
            have hlen2 : (decideGroup (prepare_config raw) ex
                (decideGroup (prepare_config raw) ex s₁)).length =
                (decideGroup (prepare_config raw) ex s₁).length := by
              have h := congrArg List.length hfst2
              rw [List.length_map, List.length_map] at h
              exact h
            obtain ⟨p, hp, hup⟩ := List.getElem_of_mem hug
            have hp2 : p < (decideGroup (prepare_config raw) ex
                (decideGroup (prepare_config raw) ex s₁)).length := by
              rw [hlen2]
              exact hp
            have hu2fst : (decideGroup (prepare_config raw) ex
                (decideGroup (prepare_config raw) ex s₁))[p].1 = j := by
              have := map_eq_getElem hfst2 p hp2 hp
              rw [this, hup, hu1]
            have hu2disp : (decideGroup (prepare_config raw) ex
                (decideGroup (prepare_config raw) ex s₁))[p].2.disposition =
                u.2.disposition := by
              have := map_eq_getElem hdisp2 p hp2 hp
              rw [this, hup]
            have hu2mem : (decideGroup (prepare_config raw) ex
                (decideGroup (prepare_config raw) ex s₁))[p] ∈
                groupUpdates (prepare_config raw) store
                  (k, g.map (phi raw store batch)) := by
              rw [hb]
              exact List.getElem_mem hp2
            have hmemg2 : (k, g.map (phi raw store batch)) ∈
                groupByKey (entryKey (prepare_config raw))
                  (on_task_filter raw store batch).enum := by
              rw [hl2, hgroups2]
              exact List.mem_map.mpr ⟨(k, g), hgp, rfl⟩
            have hfind2 := updates_find_eq (prepare_config raw) store
              (on_task_filter raw store batch).enum
              (enum_fst_nodup (on_task_filter raw store batch)) k
              (g.map (phi raw store batch)) hmemg2 _ hu2mem
            have hreb2 : rebuild
                (filterUpdates (prepare_config raw) store
                  (on_task_filter raw store batch).enum)
                (phi raw store batch (j, batch[j])) =
                (decideGroup (prepare_config raw) ex
                  (decideGroup (prepare_config raw) ex s₁))[p].2 := by
              have hfind2j : ((groupByKey (entryKey (prepare_config raw))
                  (on_task_filter raw store batch).enum).flatMap
                    (groupUpdates (prepare_config raw) store)).find?
                  (fun v => v.1 == j) =
                  some ((decideGroup (prepare_config raw) ex
                    (decideGroup (prepare_config raw) ex s₁))[p]) := by
                rw [← hu2fst]
                exact hfind2
              unfold rebuild filterUpdates
              dsimp only [phi]
              rw [hfind2j]
            rw [hreb2, ho, hu2disp]
    · have hj1 : (on_task_filter raw store batch)[j]? = none := by
        refine List.getElem?_eq_none ?_
        rw [on_task_filter_length]
        exact Nat.le_of_not_lt hj
      have hj2 : (on_task_filter raw store (on_task_filter raw store batch))[j]? = none := by
        refine List.getElem?_eq_none ?_
        rw [on_task_filter_length, on_task_filter_length]
        exact Nat.le_of_not_lt hj
      rw [hj1, hj2]
